import Mathlib

/-!
Verification development for the `keyed` real-time musical analysis engine
(C++ sources under `packages/engine/cpp`).

The C++ code computes with IEEE-754 `float`; following the usual shallow
embedding, float arithmetic is modelled by exact arithmetic in a linear
ordered field (instantiated at `ℝ` for the engine itself and at `ℚ` when a
statement is evaluated on concrete inputs).  Decimal literals in the source
(`1e-8`, `0.9`, …) are embedded as the corresponding exact rationals.

Sections, in dependency order:
 * `Resampler`  — `Resampler.cpp` (2:1 windowed-sinc downsampler).
 * `AutocorrBpm` — `AutocorrBpm.hpp` (FFT autocorrelation tempo estimator
   and the activation ring buffer).
 * `Engine` — `Engine.cpp` (orchestration of the two pipelines).
 * `Mel` — `MelExtractor.cpp` (log-filterbank construction and per-frame
   feature extraction).
-/

namespace Keyed

/-! ## Resampler (`Resampler.cpp`)

`Resampler::Resampler` fixes `filterLength_ = 127`, `historySize_ = 126`,
`ratio_ = 2` and generates Blackman-windowed sinc coefficients.  We embed the
coefficient table as a real-valued function of the tap index; none of the
orchestration claims depend on the actual coefficient values, so theorems are
proved for an arbitrary coefficient table and instantiated at
`resamplerCoefficients`. -/

/-- Length of the FIR filter (`filterLength_ = 127` in `Resampler.cpp`). -/
def filterLength : ℕ := 127

/-- Half the filter length (`halfLen = filterLength_ / 2 = 63`). -/
def halfLen : ℕ := 63

/-- Streaming history size (`historySize_ = filterLength_ - 1 = 126`). -/
def historySize : ℕ := 126

/-- Unnormalised windowed-sinc coefficient: the body of the first loop of
`generateSincFilter` (sinc value times Blackman window) at tap `i`.  The
`|n| < 1e-6` test of the source selects the `i = length/2` tap, where the
sinc limit 1 is used. -/
noncomputable def sincFilterRaw (length : ℕ) (cutoff : ℝ) (i : ℕ) : ℝ :=
  let n : ℝ := (i : ℝ) - (length / 2 : ℕ)
  let sinc : ℝ :=
    if |n| < 1 / 1000000 then 1
    else Real.sin (Real.pi * cutoff * n) / (Real.pi * n)
  let window : ℝ :=
    21 / 50 - 1 / 2 * Real.cos (2 * Real.pi * i / ((length : ℝ) - 1))
      + 2 / 25 * Real.cos (4 * Real.pi * i / ((length : ℝ) - 1))
  sinc * window

/-- Normalised filter coefficients (`generateSincFilter`): the raw windowed
sinc divided by the sum of all taps (unity DC gain). -/
noncomputable def generateSincFilter (length : ℕ) (cutoff : ℝ) (i : ℕ) : ℝ :=
  sincFilterRaw length cutoff i /
    ∑ j ∈ Finset.range length, sincFilterRaw length cutoff j

/-- Coefficient table of the engine resampler: `generateSincFilter(127, 0.9/2)`
(constructor `Resampler::Resampler` with `ratio_ = 2`). -/
noncomputable def resamplerCoefficients : ℕ → ℝ :=
  generateSincFilter filterLength (9 / 10 / 2)

section ResamplerDefs

variable {α : Type} [LinearOrderedField α]

/-- One FIR output sample: the inner loop of `Resampler::process` /
`Resampler::processStreaming`.  `pos` is `n - halfLen`, the index of the first
of the 127 consecutive buffer samples entering the dot product; indices past
the end of the buffer read 0 (they never occur under the loop guards). -/
def firDot (c : ℕ → α) (buf : List α) (pos : ℕ) : α :=
  ∑ k ∈ Finset.range filterLength, buf.getD (pos + k) 0 * c k

/-- The decimating FIR loop of `Resampler::process`: output samples are taken
at `n = halfLen, halfLen+2, …` while `n < buf.length - halfLen`.  The loop
counter is modelled directly; `n` increases by `ratio_ = 2` per output. -/
def processLoop (c : ℕ → α) (buf : List α) (n : ℕ) : List α :=
  if h : n + halfLen < buf.length then
    firDot c buf (n - halfLen) :: processLoop c buf (n + 2)
  else
    []
termination_by buf.length - n
decreasing_by
  simp only [halfLen] at h
  omega

/-- Block-mode resampling (`Resampler::process`): run the decimating FIR loop
over the bare input block, starting at `n = halfLen`. -/
def Resampler.process (c : ℕ → α) (input : List α) : List α :=
  processLoop c input halfLen

/-- Output size estimate `Resampler::getOutputSize` (`inputSize / ratio_`). -/
def Resampler.getOutputSize (inputSize : ℕ) : ℕ := inputSize / 2

/-- Streaming state of the resampler: the `history_` vector
(`historySize_ = 126` samples carried across calls). -/
structure ResamplerState (α : Type) where
  history : List α

/-- Initial / reset streaming state: history cleared to zeros
(`Resampler::reset`). -/
def ResamplerState.init : ResamplerState α := ⟨List.replicate historySize 0⟩

/-- The decimating FIR loop of `Resampler::processStreaming`: same as
`processLoop` but additionally bounded by the remaining output capacity
(`outputIdx < maxOutputSize`). -/
def streamLoop (c : ℕ → α) (buf : List α) (remaining : ℕ) (n : ℕ) : List α :=
  if h : n + halfLen < buf.length ∧ 0 < remaining then
    firDot c buf (n - halfLen) :: streamLoop c buf (remaining - 1) (n + 2)
  else
    []
termination_by buf.length - n
decreasing_by
  simp only [halfLen] at h
  omega

/-- Streaming-mode resampling (`Resampler::processStreaming`): prepend the
126-sample history to the input, run the capped decimating loop from
`n = halfLen`, and store the last 126 samples of the combined buffer as the
new history (the source guards the copy by `bufferSize >= historySize_`). -/
def Resampler.processStreaming (c : ℕ → α) (st : ResamplerState α)
    (input : List α) (maxOutputSize : ℕ) : List α × ResamplerState α :=
  let buffer := st.history ++ input
  let outs := streamLoop c buffer maxOutputSize halfLen
  let newHist :=
    if historySize ≤ buffer.length then buffer.drop (buffer.length - historySize)
    else st.history
  (outs, ⟨newHist⟩)

/-- Run the streaming resampler over a sequence of blocks, each with its own
output capacity, concatenating the produced outputs (the usage pattern of the
chunk-invariance property of spec §8). -/
def Resampler.runStreaming (c : ℕ → α) (st : ResamplerState α) :
    List (List α × ℕ) → List α × ResamplerState α
  | [] => ([], st)
  | (input, maxOut) :: rest =>
    ((Resampler.processStreaming c st input maxOut).1 ++
      (Resampler.runStreaming c
        (Resampler.processStreaming c st input maxOut).2 rest).1,
     (Resampler.runStreaming c
        (Resampler.processStreaming c st input maxOut).2 rest).2)

/-- Number of iterations of the decimating loop over a buffer of length `L`
when started at `n = halfLen` with no output cap: `⌈(L - 126)/2⌉`
(natural subtraction, hence `0` for `L ≤ 126`). -/
def blockOutCount (L : ℕ) : ℕ := (L - 126 + 1) / 2

end ResamplerDefs

section ResamplerLemmas

variable {α : Type} [LinearOrderedField α]

/-- Closed form of the uncapped decimating loop: starting at `n = 63 + 2*m` it
produces one output per remaining even step, i.e. a `List.range`-map. -/
theorem processLoop_eq_map (c : ℕ → α) (buf : List α) (m : ℕ) :
    processLoop c buf (halfLen + 2 * m) =
      (List.range (blockOutCount buf.length - m)).map
        (fun j => firDot c buf (2 * (m + j))) := by
  by_cases h : halfLen + 2 * m + halfLen < buf.length
  · have hm : m < blockOutCount buf.length := by
      simp only [halfLen, blockOutCount] at h ⊢
      omega
    rw [processLoop]
    have hstep : halfLen + 2 * m + 2 = halfLen + 2 * (m + 1) := by ring
    rw [dif_pos (by omega : halfLen + 2 * m + halfLen < buf.length), hstep,
      processLoop_eq_map c buf (m + 1)]
    have hcnt : blockOutCount buf.length - m =
        (blockOutCount buf.length - (m + 1)) + 1 := by omega
    rw [hcnt, List.range_succ_eq_map]
    simp only [List.map_cons, List.map_map]
    congr 1
    · congr 1
      simp only [halfLen]
      omega
    · apply List.map_congr_left
      intro j _
      simp only [Function.comp_apply]
      congr 1
      omega
  · have hm : blockOutCount buf.length - m = 0 := by
      simp only [halfLen, blockOutCount] at h ⊢
      omega
    rw [processLoop, dif_neg h, hm]
    simp
termination_by blockOutCount buf.length - m
decreasing_by omega

/-- Closed form of the capped decimating loop (`processStreaming`'s loop). -/
theorem streamLoop_eq_map (c : ℕ → α) (buf : List α) (remaining m : ℕ) :
    streamLoop c buf remaining (halfLen + 2 * m) =
      (List.range (min remaining (blockOutCount buf.length - m))).map
        (fun j => firDot c buf (2 * (m + j))) := by
  by_cases h : halfLen + 2 * m + halfLen < buf.length ∧ 0 < remaining
  · have hm : m < blockOutCount buf.length := by
      simp only [halfLen, blockOutCount] at h ⊢
      omega
    rw [streamLoop]
    have hstep : halfLen + 2 * m + 2 = halfLen + 2 * (m + 1) := by ring
    rw [dif_pos h, hstep, streamLoop_eq_map c buf (remaining - 1) (m + 1)]
    have hcnt : min remaining (blockOutCount buf.length - m) =
        (min (remaining - 1) (blockOutCount buf.length - (m + 1))) + 1 := by
      omega
    rw [hcnt, List.range_succ_eq_map]
    simp only [List.map_cons, List.map_map]
    congr 1
    · congr 1
      simp only [halfLen]
      omega
    · apply List.map_congr_left
      intro j _
      simp only [Function.comp_apply]
      congr 1
      omega
  · have hm : min remaining (blockOutCount buf.length - m) = 0 := by
      simp only [halfLen, blockOutCount] at h ⊢
      omega
    rw [streamLoop, dif_neg h, hm]
    simp
termination_by blockOutCount buf.length - m
decreasing_by omega

theorem processLoop_start (c : ℕ → α) (buf : List α) :
    processLoop c buf halfLen =
      (List.range (blockOutCount buf.length)).map (fun j => firDot c buf (2 * j)) := by
  have := processLoop_eq_map c buf 0
  simpa using this

theorem streamLoop_start (c : ℕ → α) (buf : List α) (remaining : ℕ) :
    streamLoop c buf remaining halfLen =
      (List.range (min remaining (blockOutCount buf.length))).map
        (fun j => firDot c buf (2 * j)) := by
  have := streamLoop_eq_map c buf remaining 0
  simpa using this

/-- Number of block-mode output samples, as produced by the loop. -/
theorem process_length (c : ℕ → α) (input : List α) :
    (Resampler.process c input).length = blockOutCount input.length := by
  rw [Resampler.process, processLoop_start]
  simp

theorem getD_drop (l : List α) (n i : ℕ) :
    (l.drop n).getD i 0 = l.getD (n + i) 0 := by
  simp [List.getD_eq_getElem?_getD, List.getElem?_drop]

theorem getD_append_left (l l' : List α) (i : ℕ) (h : i < l.length) :
    (l ++ l').getD i 0 = l.getD i 0 := by
  simp [List.getD_eq_getElem?_getD, List.getElem?_append_left h]

theorem processStreaming_fst (c : ℕ → α) (st : ResamplerState α)
    (input : List α) (maxOut : ℕ) :
    (Resampler.processStreaming c st input maxOut).1 =
      streamLoop c (st.history ++ input) maxOut halfLen := rfl

theorem processStreaming_snd (c : ℕ → α) (st : ResamplerState α)
    (input : List α) (maxOut : ℕ) :
    (Resampler.processStreaming c st input maxOut).2 =
      ResamplerState.mk
        (if historySize ≤ (st.history ++ input).length then
          (st.history ++ input).drop ((st.history ++ input).length - historySize)
         else st.history) := rfl

/-- The dot product at position `2*j` only reads the first `126 + 2*(j+1)`
buffer samples, so extending the buffer on the right does not change it. -/
theorem firDot_append (c : ℕ → α) (buf ext : List α) (p : ℕ)
    (h : p + filterLength ≤ buf.length) :
    firDot c (buf ++ ext) p = firDot c buf p := by
  unfold firDot
  apply Finset.sum_congr rfl
  intro k hk
  rw [Finset.mem_range] at hk
  rw [getD_append_left _ _ _ (by omega)]

/-- Splitting lemma for the streaming resampler: a call on `B₁ ++ B₂` equals
the calls on `B₁` then `B₂`, provided `B₁` has even length and no output cap
binds.  This is the heart of the chunk-invariance property; the even-length
hypothesis is what keeps the decimation phase aligned across the call
boundary. -/
theorem processStreaming_append (c : ℕ → α) (st : ResamplerState α)
    (hst : st.history.length = historySize) (B₁ B₂ : List α)
    (hB : 2 ∣ B₁.length) (mo₁ mo₂ M : ℕ)
    (h1 : blockOutCount (historySize + B₁.length) ≤ mo₁)
    (h2 : blockOutCount (historySize + B₂.length) ≤ mo₂)
    (hM : blockOutCount (historySize + (B₁.length + B₂.length)) ≤ M) :
    Resampler.processStreaming c st (B₁ ++ B₂) M =
      (let r₁ := Resampler.processStreaming c st B₁ mo₁
       let r₂ := Resampler.processStreaming c r₁.2 B₂ mo₂
       (r₁.1 ++ r₂.1, r₂.2)) := by
  obtain ⟨m, hm⟩ := hB
  have hlenh : st.history.length = 126 := by simpa [historySize] using hst
  have hlen1 : (st.history ++ B₁).length = 126 + 2 * m := by simp [hlenh, hm]
  have hcnt2 := blockOutCount (126 + B₂.length)
  -- history produced by the first call
  have hist1 : (Resampler.processStreaming c st B₁ mo₁).2 =
      ResamplerState.mk ((st.history ++ B₁).drop (2 * m)) := by
    rw [processStreaming_snd]
    rw [if_pos (by simp only [historySize]; omega)]
    have hd : (st.history ++ B₁).length - historySize = 2 * m := by
      simp only [historySize]
      omega
    rw [hd]
  -- the second call's buffer is a suffix of the full buffer
  have hbuf2 : ((st.history ++ B₁) ++ B₂).drop (2 * m) =
      (st.history ++ B₁).drop (2 * m) ++ B₂ :=
    List.drop_append_of_le_length (by omega)
  have hlen2 : ((st.history ++ B₁).drop (2 * m) ++ B₂).length =
      126 + B₂.length := by
    simp
    omega
  have hlenAll : ((st.history ++ B₁) ++ B₂).length =
      126 + (2 * m + B₂.length) := by
    simp [hlenh, hm]
  have hAssoc : st.history ++ (B₁ ++ B₂) = (st.history ++ B₁) ++ B₂ :=
    (List.append_assoc _ _ _).symm
  -- first-call outputs
  have hout1 : (Resampler.processStreaming c st B₁ mo₁).1 =
      (List.range m).map (fun j => firDot c (st.history ++ B₁) (2 * j)) := by
    rw [processStreaming_fst, streamLoop_start]
    have hmin1 : min mo₁ (blockOutCount ((st.history ++ B₁).length)) = m := by
      rw [hlen1]
      simp only [blockOutCount, historySize, hm] at h1 ⊢
      omega
    rw [hmin1]
  -- second-call outputs
  have hout2 : (Resampler.processStreaming c
        (ResamplerState.mk ((st.history ++ B₁).drop (2 * m))) B₂ mo₂).1 =
      (List.range (blockOutCount (126 + B₂.length))).map
        (fun j => firDot c ((st.history ++ B₁).drop (2 * m) ++ B₂) (2 * j)) := by
    rw [processStreaming_fst, streamLoop_start]
    have hmin2 : min mo₂
        (blockOutCount (((st.history ++ B₁).drop (2 * m) ++ B₂).length)) =
        blockOutCount (126 + B₂.length) := by
      rw [hlen2]
      simp only [historySize] at h2
      omega
    rw [hmin2]
  -- history produced by the second call
  have hist2 : (Resampler.processStreaming c
        (ResamplerState.mk ((st.history ++ B₁).drop (2 * m))) B₂ mo₂).2 =
      ResamplerState.mk (((st.history ++ B₁) ++ B₂).drop (2 * m + B₂.length)) := by
    rw [processStreaming_snd]
    rw [if_pos (by rw [hlen2]; simp only [historySize]; omega)]
    refine congrArg ResamplerState.mk ?_
    rw [hlen2]
    have hsub : 126 + B₂.length - historySize = B₂.length := by
      simp [historySize]
    rw [hsub, ← hbuf2, List.drop_drop]
  -- single-call outputs split into the two phases
  have houtAll : (Resampler.processStreaming c st (B₁ ++ B₂) M).1 =
      ((List.range m).map (fun j => firDot c (st.history ++ B₁) (2 * j))) ++
      ((List.range (blockOutCount (126 + B₂.length))).map
        (fun j => firDot c ((st.history ++ B₁).drop (2 * m) ++ B₂) (2 * j))) := by
    rw [processStreaming_fst, hAssoc, streamLoop_start]
    have hminAll : min M (blockOutCount (((st.history ++ B₁) ++ B₂).length)) =
        m + blockOutCount (126 + B₂.length) := by
      rw [hlenAll]
      simp only [blockOutCount, historySize, hm] at hM ⊢
      omega
    rw [hminAll, List.range_add m (blockOutCount (126 + B₂.length)),
      List.map_append, List.map_map]
    congr 1
    · -- prefix outputs read only `st.history ++ B₁`
      apply List.map_congr_left
      intro j hj
      rw [List.mem_range] at hj
      exact firDot_append c (st.history ++ B₁) B₂ (2 * j)
        (by simp only [hlen1, filterLength]; omega)
    · -- suffix outputs are shifted reads of the full buffer
      apply List.map_congr_left
      intro j _
      simp only [Function.comp_apply]
      unfold firDot
      apply Finset.sum_congr rfl
      intro k _
      rw [← hbuf2, getD_drop]
      have hidx : 2 * (m + j) + k = 2 * m + (2 * j + k) := by ring
      rw [hidx]
  -- the final history of the single call
  have histAllEq : (Resampler.processStreaming c st (B₁ ++ B₂) M).2 =
      ResamplerState.mk (((st.history ++ B₁) ++ B₂).drop (2 * m + B₂.length)) := by
    rw [processStreaming_snd, hAssoc]
    rw [if_pos (by rw [hlenAll]; simp only [historySize]; omega)]
    refine congrArg ResamplerState.mk ?_
    rw [hlenAll]
    have hidx : 126 + (2 * m + B₂.length) - historySize = 2 * m + B₂.length := by
      simp [historySize]
    rw [hidx]
  show Resampler.processStreaming c st (B₁ ++ B₂) M =
    ((Resampler.processStreaming c st B₁ mo₁).1 ++
      (Resampler.processStreaming c
        (Resampler.processStreaming c st B₁ mo₁).2 B₂ mo₂).1,
     (Resampler.processStreaming c
        (Resampler.processStreaming c st B₁ mo₁).2 B₂ mo₂).2)
  rw [hist1, hout1, hout2, hist2]
  calc Resampler.processStreaming c st (B₁ ++ B₂) M
      = ((Resampler.processStreaming c st (B₁ ++ B₂) M).1,
         (Resampler.processStreaming c st (B₁ ++ B₂) M).2) := rfl
    _ = _ := by rw [houtAll, histAllEq]

/-- History length is preserved by a streaming call (given the invariant). -/
theorem processStreaming_history_length (c : ℕ → α) (st : ResamplerState α)
    (hst : st.history.length = historySize) (input : List α) (maxOut : ℕ) :
    (Resampler.processStreaming c st input maxOut).2.history.length =
      historySize := by
  rw [processStreaming_snd]
  simp only
  rw [if_pos (by rw [List.length_append, hst]; simp [historySize])]
  simp only [List.length_drop, List.length_append, hst]
  simp [historySize]

/-- Length of the streaming output of one call. -/
theorem processStreaming_length (c : ℕ → α) (st : ResamplerState α)
    (input : List α) (maxOut : ℕ) :
    (Resampler.processStreaming c st input maxOut).1.length =
      min maxOut (blockOutCount (st.history.length + input.length)) := by
  rw [processStreaming_fst, streamLoop_start]
  simp

/-- Chunked streaming equals one streaming call on the concatenation, for
blocks of even length and non-binding output caps. -/
theorem runStreaming_eq_single (c : ℕ → α) :
    ∀ (bs : List (List α × ℕ)) (st : ResamplerState α)
      (_ : st.history.length = historySize)
      (_ : ∀ b ∈ bs, 2 ∣ b.1.length ∧
        blockOutCount (historySize + b.1.length) ≤ b.2)
      (M : ℕ)
      (_ : blockOutCount (historySize + ((bs.map Prod.fst).flatten).length) ≤ M),
      Resampler.runStreaming c st bs =
        Resampler.processStreaming c st ((bs.map Prod.fst).flatten) M
  | [], st, hst, _, M, _ => by
    simp only [Resampler.runStreaming, List.map_nil, List.flatten_nil]
    have hfst : (Resampler.processStreaming c st ([] : List α) M).1 = [] := by
      rw [processStreaming_fst, streamLoop_start]
      have hc : blockOutCount ((st.history ++ ([] : List α)).length) = 0 := by
        simp [hst, blockOutCount, historySize]
      rw [hc]
      simp
    have hsnd : (Resampler.processStreaming c st ([] : List α) M).2 = st := by
      rw [processStreaming_snd]
      rw [if_pos (by simp [hst])]
      simp [hst]
    calc ([], st) =
        ((Resampler.processStreaming c st ([] : List α) M).1,
         (Resampler.processStreaming c st ([] : List α) M).2) := by
          rw [hfst, hsnd]
      _ = Resampler.processStreaming c st ([] : List α) M := rfl
  | (B, mo) :: rest, st, hst, hbs, M, hM => by
    have hB := hbs (B, mo) (List.mem_cons_self _ _)
    have hrest : ∀ b ∈ rest, 2 ∣ b.1.length ∧
        blockOutCount (historySize + b.1.length) ≤ b.2 :=
      fun b hb => hbs b (List.mem_cons_of_mem _ hb)
    have hM' : blockOutCount (historySize +
        (B.length + ((rest.map Prod.fst).flatten).length)) ≤ M := by
      simpa using hM
    have hsplit := processStreaming_append c st hst B
      ((rest.map Prod.fst).flatten) hB.1 mo
      (blockOutCount (historySize + ((rest.map Prod.fst).flatten).length)) M
      hB.2 le_rfl hM'
    have hst' := processStreaming_history_length c st hst B mo
    have hIH := runStreaming_eq_single c rest
      (Resampler.processStreaming c st B mo).2 hst' hrest
      (blockOutCount (historySize + ((rest.map Prod.fst).flatten).length))
      le_rfl
    show ((Resampler.processStreaming c st B mo).1 ++
        (Resampler.runStreaming c
          (Resampler.processStreaming c st B mo).2 rest).1,
       (Resampler.runStreaming c
          (Resampler.processStreaming c st B mo).2 rest).2) =
      Resampler.processStreaming c st
        ((((B, mo) :: rest).map Prod.fst).flatten) M
    rw [List.map_cons, List.flatten_cons, hsplit, hIH]

end ResamplerLemmas

/-! ### Claims C1 and C9 -/

/-- C1 (counterexample).  Chunking the same two samples as two odd-length
blocks does not reproduce the single-call streaming output: the chunked run
produces two output samples while the single call produces one (the loop of
`processStreaming` restarts at `n = halfLen` each call, so an odd-length
block flips the decimation phase). -/
theorem C1_counterexample :
    (Resampler.runStreaming resamplerCoefficients .init
        [([(0 : ℝ)], 64), ([0], 64)]).1 ≠
      (Resampler.processStreaming resamplerCoefficients .init
        ([0, 0] : List ℝ) 64).1 := by
  intro h
  have hlen := congrArg List.length h
  have hinit : (ResamplerState.init (α := ℝ)).history.length = 126 := by
    simp [ResamplerState.init, historySize]
  have hst1 : (Resampler.processStreaming resamplerCoefficients
      (ResamplerState.init (α := ℝ)) [0] 64).2.history.length = 126 := by
    rw [processStreaming_history_length resamplerCoefficients _
      (by simp [ResamplerState.init]) [0] 64]
    rfl
  have hL : (Resampler.runStreaming resamplerCoefficients
      (ResamplerState.init (α := ℝ)) [([(0 : ℝ)], 64), ([0], 64)]).1.length =
      2 := by
    simp only [Resampler.runStreaming, List.length_append,
      processStreaming_length, hinit, hst1, List.length_cons,
      List.length_nil, List.length_singleton]
    norm_num [blockOutCount]
  have hR : (Resampler.processStreaming resamplerCoefficients
      (ResamplerState.init (α := ℝ)) ([0, 0] : List ℝ) 64).1.length = 1 := by
    rw [processStreaming_length]
    rw [hinit]
    norm_num [blockOutCount]
  rw [hL, hR] at hlen
  exact absurd hlen (by norm_num)

/-- C1 (amended).  For every sequence of input blocks of even length (with
non-binding output capacities), the concatenated streaming output after reset
is sample-for-sample identical — including the final history — to a single
`processStreaming` call on the concatenation of the blocks.  Odd-length
blocks, in contrast, shift the decimation phase (see the counterexample). -/
theorem C1_streaming_chunk_invariance (bs : List (List ℝ × ℕ)) (M : ℕ)
    (hbs : ∀ b ∈ bs, 2 ∣ b.1.length ∧
      blockOutCount (historySize + b.1.length) ≤ b.2)
    (hM : blockOutCount (historySize + ((bs.map Prod.fst).flatten).length) ≤ M) :
    Resampler.runStreaming resamplerCoefficients .init bs =
      Resampler.processStreaming resamplerCoefficients .init
        ((bs.map Prod.fst).flatten) M :=
  runStreaming_eq_single resamplerCoefficients bs .init
    (by simp [ResamplerState.init]) hbs M hM

/-- C1 (witness): the amended theorem applied to two concrete even-length
blocks. -/
theorem C1_streaming_chunk_invariance_witness :
    Resampler.runStreaming resamplerCoefficients .init
        [([(1 : ℝ), 2], 64), ([3, 4], 64)] =
      Resampler.processStreaming resamplerCoefficients .init
        ([1, 2, 3, 4] : List ℝ) 64 := by
  have h := C1_streaming_chunk_invariance [([(1 : ℝ), 2], 64), ([3, 4], 64)] 64
    (by
      intro b hb
      simp only [List.mem_cons, List.not_mem_nil, or_false] at hb
      rcases hb with h | h <;> subst h <;>
        exact ⟨⟨1, rfl⟩, by norm_num [blockOutCount, historySize]⟩)
    (by norm_num [blockOutCount, historySize])
  exact h

/-- C9 (counterexample).  On a 100-sample block, block-mode `process` produces
0 output samples, not `⌊100/2⌋ = 50` as the claim states: the loop skips the
63-sample boundary regions entirely instead of producing truncated edge
outputs. -/
theorem C9_counterexample :
    (Resampler.process resamplerCoefficients
        (List.replicate 100 (0 : ℝ))).length ≠ Resampler.getOutputSize 100 := by
  rw [process_length]
  simp [blockOutCount, Resampler.getOutputSize]

/-- C9 (amended).  For every input block of `len` samples, block-mode
`process` produces exactly `⌈(len − 126)/2⌉` output samples (so 0 for
`len ≤ 126`): the 63 filter-delay samples at each boundary are skipped, not
approximated; `getOutputSize` still reports `⌊len/2⌋`, an upper bound used
only for buffer sizing. -/
theorem C9_block_output_count (input : List ℝ) :
    (Resampler.process resamplerCoefficients input).length =
        (input.length - 126 + 1) / 2 ∧
      Resampler.getOutputSize input.length = input.length / 2 :=
  ⟨process_length resamplerCoefficients input, rfl⟩

/-! ## Autocorrelation BPM estimator (`AutocorrBpm.hpp`)

The estimator and the activation ring buffer are embedded polymorphically in
a linear ordered field with a floor (the engine instantiates `ℝ`; concrete
evaluations use `ℚ`).  The float literals `1e-8f` of the source are embedded
as the exact rational `1/10^8`. -/

section AutocorrBpmDefs

variable {α : Type} [LinearOrderedField α]

/-- The FFT-size loop of `computeAutocorrelationFFT`
(`while (fftSize < m) fftSize *= 2` starting from 1), with explicit fuel;
`nextPow2 m` uses fuel `m`, which is always sufficient since `2^m ≥ m`. -/
def nextPow2Go : ℕ → ℕ → ℕ → ℕ
  | 0, _, cur => cur
  | fuel + 1, m, cur => if cur < m then nextPow2Go fuel m (2 * cur) else cur

/-- FFT size used for the autocorrelation of an `n`-sample signal:
the smallest power of two that is at least `m = 2 * n`. -/
def nextPow2 (m : ℕ) : ℕ := nextPow2Go m m 1

/-- Circular autocorrelation of the zero-padded signal at lag `i`:
`r[i] = Σ_{j<M} x[j]·x[(j+i) mod M]` where `x` is `s` zero-padded to length
`M`.  This is the exact real value produced by the FFT path of
`computeAutocorrelationFFT` (forward c2c transform, pointwise squared
magnitude, inverse c2c transform with `1/M` scaling, real part); the identity
with the transform path is proved in `circAutocorr_eq_dft_path` below.
`List.getD _ _ 0` returns 0 beyond the end of `s`, matching the padding. -/
def circAutocorr (s : List α) (M i : ℕ) : α :=
  ∑ j ∈ Finset.range M, s.getD j 0 * s.getD ((j + i) % M) 0

/-- `AutocorrBpmEstimator::computeAutocorrelationFFT`: unbiased linear
autocorrelation of the first `n` lags, normalised by `r[0] + 1e-8`. -/
def computeAutocorrelationFFT (s : List α) : List α :=
  let n := s.length
  let M := nextPow2 (2 * n)
  let norm := circAutocorr s M 0 + 1 / 100000000
  (List.range n).map (fun i => circAutocorr s M i / norm)

/-- Rounding in the style of `std::round`: halfway cases away from zero. -/
def rround [FloorRing α] (x : α) : α :=
  if 0 ≤ x then ((⌊x + 1 / 2⌋ : ℤ) : α) else -((⌊-x + 1 / 2⌋ : ℤ) : α)

/-- The peak-search loop of `AutocorrBpmEstimator::estimate` (lines 74–81):
starting from `(minLag, a minLag)`, scan `i = minLag+1, …, maxLag-1` and keep
the first strict maximum. -/
def peakSearch (a : ℕ → α) (minLag maxLag : ℕ) : ℕ × α :=
  (List.range' (minLag + 1) (maxLag - (minLag + 1))).foldl
    (fun p i => if a i > p.2 then (i, a i) else p) (minLag, a minLag)

/-- DJ-range octave correction (`estimate`, lines 103–112): double a slow
tempo into [75, 165], halve a fast one. -/
def octaveCorrect (bpm : α) : α :=
  let doubled := bpm * 2
  let halved := bpm / 2
  if bpm < 75 ∧ 75 ≤ doubled ∧ doubled ≤ 165 then doubled
  else if 165 < bpm ∧ 75 ≤ halved ∧ halved ≤ 165 then halved
  else bpm

/-- `AutocorrBpmEstimator::estimate`.  `numFrames` is the common length of
the two activation arrays (the C++ takes raw pointers plus a count).  The
constants: `FPS = 50`, `minLag = int(50*60/180) = 16`,
`maxLag = int(50*60/60) = 50` clamped to `numFrames - 1`. -/
def AutocorrBpmEstimator.estimate [FloorRing α] (beat down : List α)
    (applyOctaveCorrection : Bool) : α :=
  let numFrames := beat.length
  if numFrames < 50 then 0
  else
    let signal := List.zipWith (· + ·) beat down
    let autocorr := computeAutocorrelationFFT signal
    let a : ℕ → α := fun i => autocorr.getD i 0
    let minLag : ℕ := 16
    let maxLag : ℕ := if numFrames ≤ 50 then numFrames - 1 else 50
    if maxLag ≤ minLag then 0
    else
      let p := (peakSearch a minLag maxLag).1
      let refined : α :=
        if 0 < p ∧ p < numFrames - 1 then
          if a (p - 1) < a p ∧ a (p + 1) < a p then
            if 1 / 100000000 < |a (p - 1) - 2 * a p + a (p + 1)| then
              (p : α) + 1 / 2 * (a (p - 1) - a (p + 1)) /
                (a (p - 1) - 2 * a p + a (p + 1))
            else (p : α)
          else (p : α)
        else (p : α)
      let bpm := rround (60 * 50 / refined)
      if applyOctaveCorrection = true ∧ 0 < bpm then octaveCorrect bpm else bpm

/-- Default ring capacity (`DEFAULT_MAX_FRAMES = 512`). -/
def DEFAULT_MAX_FRAMES : ℕ := 512

/-- Minimum number of stored activations before any BPM is produced
(`MIN_FRAMES_FOR_BPM = 100`). -/
def MIN_FRAMES_FOR_BPM : ℕ := 100

/-- State of `ActivationBuffer`: circular arrays of length `maxFrames`,
write head, saturating count, cached BPM and the recompute cadence. -/
structure ActivationBuffer (α : Type) where
  maxFrames : ℕ
  head : ℕ
  count : ℕ
  beatActivations : List α
  downbeatActivations : List α
  cachedBpm : α
  framesSinceLastCompute : ℕ
  bpmComputeInterval : ℕ

/-- Freshly constructed buffer (`ActivationBuffer(maxFrames)`): arrays of
zeros, counters zero, interval 25. -/
def ActivationBuffer.init (maxFrames : ℕ) : ActivationBuffer α :=
  ⟨maxFrames, 0, 0, List.replicate maxFrames 0, List.replicate maxFrames 0,
    0, 0, 25⟩

/-- `ActivationBuffer::size`. -/
def ActivationBuffer.size (b : ActivationBuffer α) : ℕ := b.count

/-- `ActivationBuffer::getCachedBpm`. -/
def ActivationBuffer.getCachedBpm (b : ActivationBuffer α) : α := b.cachedBpm

/-- `ActivationBuffer::clear`: reset head, count, cache and cadence counter
(array contents are left in place, as in the source). -/
def ActivationBuffer.clear (b : ActivationBuffer α) : ActivationBuffer α :=
  { b with head := 0, count := 0, cachedBpm := 0, framesSinceLastCompute := 0 }

/-- `ActivationBuffer::extractInOrder`: read `count` entries oldest-to-newest
starting at index 0 (buffer not yet wrapped) or at `head` (wrapped). -/
def ActivationBuffer.extractInOrder (b : ActivationBuffer α) :
    List α × List α :=
  let start := if b.count < b.maxFrames then 0 else b.head
  ((List.range b.count).map
      (fun i => b.beatActivations.getD ((start + i) % b.maxFrames) 0),
   (List.range b.count).map
      (fun i => b.downbeatActivations.getD ((start + i) % b.maxFrames) 0))

/-- `ActivationBuffer::recomputeBpm`: run the estimator (octave correction
on) over the in-order contents and reset the cadence counter. -/
def ActivationBuffer.recomputeBpm [FloorRing α] (b : ActivationBuffer α) :
    ActivationBuffer α :=
  { b with
    cachedBpm := AutocorrBpmEstimator.estimate
      b.extractInOrder.1 b.extractInOrder.2 true,
    framesSinceLastCompute := 0 }

/-- The unconditional part of `ActivationBuffer::push`: store the pair at
`head`, advance `head` modulo capacity, bump the saturating count and the
cadence counter. -/
def ActivationBuffer.pushRaw (b : ActivationBuffer α) (beat down : α) :
    ActivationBuffer α :=
  { b with
    beatActivations := b.beatActivations.set b.head beat,
    downbeatActivations := b.downbeatActivations.set b.head down,
    head := (b.head + 1) % b.maxFrames,
    count := if b.count < b.maxFrames then b.count + 1 else b.count,
    framesSinceLastCompute := b.framesSinceLastCompute + 1 }

/-- `ActivationBuffer::push`: store the pair, then recompute the BPM when at
least `MIN_FRAMES_FOR_BPM` frames are stored and the cadence counter has
reached the recompute interval. -/
def ActivationBuffer.push [FloorRing α] (b : ActivationBuffer α)
    (beat down : α) : ActivationBuffer α :=
  let b1 := b.pushRaw beat down
  if MIN_FRAMES_FOR_BPM ≤ b1.count ∧
      b1.bpmComputeInterval ≤ b1.framesSinceLastCompute then
    b1.recomputeBpm
  else b1

/-- `ActivationBuffer::estimateBpm`: forced recomputation (returns 0 and
leaves the cache untouched below the minimum). -/
def ActivationBuffer.estimateBpm [FloorRing α] (b : ActivationBuffer α)
    (applyOctaveCorrection : Bool) : α × ActivationBuffer α :=
  if b.count < MIN_FRAMES_FOR_BPM then (0, b)
  else
    let r := AutocorrBpmEstimator.estimate
      b.extractInOrder.1 b.extractInOrder.2 applyOctaveCorrection
    (r, { b with cachedBpm := r, framesSinceLastCompute := 0 })

/-- Push a whole sequence of (beat, downbeat) pairs, oldest first. -/
def ActivationBuffer.pushAll [FloorRing α] (b : ActivationBuffer α)
    (xs : List (α × α)) : ActivationBuffer α :=
  xs.foldl (fun acc x => acc.push x.1 x.2) b

end AutocorrBpmDefs

section DftJustification

/-! The FFT path of `computeAutocorrelationFFT` (forward transform of the
zero-padded signal, pointwise squared magnitude, inverse transform with
`1/M` scaling, real part) computes exactly the circular autocorrelation
`circAutocorr` used as its semantics above: the discrete Wiener–Khinchin
identity over `ℤ/M`. -/

/-- Orthogonality of the `M`-th roots of unity:
`Σ_{k<M} e^(2πi·m·k/M)` is `M` when `M ∣ m` and `0` otherwise. -/
theorem exp_orthog (M : ℕ) (hM : 0 < M) (m : ℤ) :
    ∑ k ∈ Finset.range M,
      Complex.exp (2 * Real.pi * Complex.I * m * k / M) =
    if (M : ℤ) ∣ m then (M : ℂ) else 0 := by
  have hMC : ((M : ℕ) : ℂ) ≠ 0 := Nat.cast_ne_zero.mpr (by omega)
  by_cases hdvd : (M : ℤ) ∣ m
  · rw [if_pos hdvd]
    obtain ⟨t, rfl⟩ := hdvd
    have hterm : ∀ k ∈ Finset.range M,
        Complex.exp (2 * Real.pi * Complex.I * (((M : ℤ) * t : ℤ) : ℂ) * k / M)
          = 1 := by
      intro k _
      rw [show (2 * (Real.pi : ℂ) * Complex.I * (((M : ℤ) * t : ℤ) : ℂ) * k / M)
          = ((t * k : ℤ) : ℂ) * (2 * Real.pi * Complex.I) by
        push_cast
        field_simp
        ring]
      exact Complex.exp_int_mul_two_pi_mul_I (t * k)
    rw [Finset.sum_congr rfl hterm]
    simp
  · rw [if_neg hdvd]
    set z : ℂ := Complex.exp (2 * Real.pi * Complex.I * m / M) with hz
    have hterm : ∀ k ∈ Finset.range M,
        Complex.exp (2 * Real.pi * Complex.I * m * k / M) = z ^ k := by
      intro k _
      rw [hz, ← Complex.exp_nat_mul]
      congr 1
      ring
    rw [Finset.sum_congr rfl hterm]
    have hzM : z ^ M = 1 := by
      rw [hz, ← Complex.exp_nat_mul,
        show ((M : ℕ) : ℂ) * (2 * Real.pi * Complex.I * m / M)
          = (m : ℂ) * (2 * Real.pi * Complex.I) by
          field_simp
          ring]
      exact Complex.exp_int_mul_two_pi_mul_I m
    have h2pi : (2 * (Real.pi : ℂ) * Complex.I) ≠ 0 := by
      simp [Real.pi_ne_zero, Complex.I_ne_zero]
    have hz1 : z ≠ 1 := by
      intro hcon
      rw [hz, Complex.exp_eq_one_iff] at hcon
      obtain ⟨n, hn⟩ := hcon
      apply hdvd
      refine ⟨n, ?_⟩
      have hfs : (2 * (Real.pi : ℂ) * Complex.I) * (m : ℂ)
          = (2 * (Real.pi : ℂ) * Complex.I) * ((M : ℂ) * n) := by
        field_simp at hn
        linear_combination hn
      have := mul_left_cancel₀ h2pi hfs
      exact_mod_cast this
    rw [geom_sum_eq hz1, hzM]
    simp

/-- Shifting an index modulo `M` does not change divisibility of the
DFT exponent. -/
theorem mod_shift_dvd (M j d i : ℕ) (hM : 0 < M) :
    ((M : ℤ) ∣ ((((j + d) % M : ℕ) : ℤ) - (j : ℤ) + (i : ℤ))) ↔
      ((M : ℤ) ∣ ((d + i : ℕ) : ℤ)) := by
  have h1 : (((j + d) % M : ℕ) : ℤ) ≡ ((j : ℤ) + d) [ZMOD (M : ℤ)] := by
    have : (((j + d) % M : ℕ) : ℤ) = ((j : ℤ) + d) % (M : ℤ) := by
      push_cast
      rfl
    rw [this]
    exact Int.emod_emod_of_dvd _ dvd_rfl
  have h2 : ((((j + d) % M : ℕ) : ℤ) - (j : ℤ) + (i : ℤ)) ≡
      (((j : ℤ) + d) - (j : ℤ) + (i : ℤ)) [ZMOD (M : ℤ)] :=
    (h1.sub_right _).add_right _
  have h3 : (((j : ℤ) + d) - (j : ℤ) + (i : ℤ)) = ((d + i : ℕ) : ℤ) := by
    push_cast
    ring
  rw [← Int.modEq_zero_iff_dvd, ← Int.modEq_zero_iff_dvd, ← h3]
  exact ⟨fun h => (h2.symm.trans h), fun h => h2.trans h⟩

/-- Circular correlation of a sequence with itself is lag-symmetric:
lag `(M - i) mod M` gives the same sum as lag `i`. -/
theorem circ_shift (f : ℕ → ℂ) (M i : ℕ) (hM : 0 < M) (hi : i < M) :
    ∑ j ∈ Finset.range M, f j * f ((j + (M - i) % M) % M)
      = ∑ j ∈ Finset.range M, f j * f ((j + i) % M) := by
  by_cases hi0 : i = 0
  · subst hi0
    simp [Nat.mod_self]
  · have hd : (M - i) % M = M - i := Nat.mod_eq_of_lt (by omega)
    rw [hd]
    refine Finset.sum_nbij' (fun j => (j + (M - i)) % M)
      (fun j => (j + i) % M) ?_ ?_ ?_ ?_ ?_
    · intro j hj
      rw [Finset.mem_range] at hj ⊢
      exact Nat.mod_lt _ hM
    · intro j hj
      rw [Finset.mem_range] at hj ⊢
      exact Nat.mod_lt _ hM
    · intro j hj
      rw [Finset.mem_range] at hj
      simp only
      rw [Nat.mod_add_mod, show j + (M - i) + i = j + M by omega,
        Nat.add_mod_right, Nat.mod_eq_of_lt hj]
    · intro j hj
      rw [Finset.mem_range] at hj
      simp only
      rw [Nat.mod_add_mod, show j + i + (M - i) = j + M by omega,
        Nat.add_mod_right, Nat.mod_eq_of_lt hj]
    · intro j hj
      rw [Finset.mem_range] at hj
      simp only
      rw [Nat.mod_add_mod, show j + (M - i) + i = j + M by omega,
        Nat.add_mod_right, Nat.mod_eq_of_lt hj]
      ring

/-- Discrete Wiener–Khinchin identity: the real part of the inverse DFT
of the squared DFT magnitudes of the zero-padded signal, scaled by `1/M`,
is exactly `circAutocorr` — the FFT path of
`computeAutocorrelationFFT` agrees with its circular-sum semantics. -/
theorem circAutocorr_eq_dft_path (s : List ℝ) (M : ℕ) (hM : 0 < M) (i : ℕ)
    (hi : i < M) :
    (((M : ℂ))⁻¹ * ∑ k ∈ Finset.range M,
        ((∑ j ∈ Finset.range M, ((s.getD j 0 : ℝ) : ℂ) *
            Complex.exp (-(2 * Real.pi * Complex.I) * j * k / M)) *
          (starRingEnd ℂ) (∑ j ∈ Finset.range M, ((s.getD j 0 : ℝ) : ℂ) *
            Complex.exp (-(2 * Real.pi * Complex.I) * j * k / M)) *
          Complex.exp (2 * Real.pi * Complex.I * k * i / M))).re
      = circAutocorr s M i := by
  have hMC : ((M : ℕ) : ℂ) ≠ 0 := Nat.cast_ne_zero.mpr (by omega)
  set x : ℕ → ℂ := fun j => ((s.getD j 0 : ℝ) : ℂ) with hxdef
  have hconj : ∀ k : ℕ, (starRingEnd ℂ)
      (∑ j ∈ Finset.range M,
        x j * Complex.exp (-(2 * Real.pi * Complex.I) * j * k / M))
      = ∑ l ∈ Finset.range M,
          x l * Complex.exp (2 * Real.pi * Complex.I * l * k / M) := by
    intro k
    rw [map_sum]
    refine Finset.sum_congr rfl fun l _ => ?_
    rw [map_mul]
    congr 1
    · simp only [hxdef]
      exact Complex.conj_ofReal _
    · rw [← Complex.exp_conj]
      congr 1
      simp only [map_div₀, map_mul, map_neg, Complex.conj_I,
        Complex.conj_ofReal, map_natCast, map_ofNat]
      ring
  have hstep1 : ∀ k ∈ Finset.range M,
      ((∑ j ∈ Finset.range M,
          x j * Complex.exp (-(2 * Real.pi * Complex.I) * j * k / M)) *
        (starRingEnd ℂ) (∑ j ∈ Finset.range M,
          x j * Complex.exp (-(2 * Real.pi * Complex.I) * j * k / M)) *
        Complex.exp (2 * Real.pi * Complex.I * k * i / M))
      = ∑ j ∈ Finset.range M, ∑ l ∈ Finset.range M,
          x j * x l * Complex.exp (2 * Real.pi * Complex.I *
            ((((l : ℤ) - (j : ℤ) + (i : ℤ)) : ℤ) : ℂ) * k / M) := by
    intro k _
    rw [hconj k]
    rw [Finset.sum_mul_sum, Finset.sum_mul]
    refine Finset.sum_congr rfl fun j _ => ?_
    rw [Finset.sum_mul]
    refine Finset.sum_congr rfl fun l _ => ?_
    rw [show (x j * Complex.exp (-(2 * Real.pi * Complex.I) * j * k / M) *
        (x l * Complex.exp (2 * Real.pi * Complex.I * l * k / M)) *
        Complex.exp (2 * Real.pi * Complex.I * k * i / M))
        = x j * x l *
          (Complex.exp (-(2 * Real.pi * Complex.I) * j * k / M) *
            Complex.exp (2 * Real.pi * Complex.I * l * k / M) *
            Complex.exp (2 * Real.pi * Complex.I * k * i / M)) by ring]
    rw [← Complex.exp_add, ← Complex.exp_add]
    congr 1
    push_cast
    ring
  have hcollapse : ∀ j ∈ Finset.range M,
      (∑ l ∈ Finset.range M, x j * x l *
        (if (M : ℤ) ∣ ((l : ℤ) - (j : ℤ) + (i : ℤ)) then (M : ℂ) else 0))
      = x j * x ((j + (M - i) % M) % M) * M := by
    intro j hj
    rw [Finset.mem_range] at hj
    set l₀ := (j + (M - i) % M) % M with hl0
    have hl0M : l₀ < M := Nat.mod_lt _ hM
    have hl0dvd : (M : ℤ) ∣ ((l₀ : ℤ) - (j : ℤ) + (i : ℤ)) := by
      rw [hl0, mod_shift_dvd M j ((M - i) % M) i hM]
      by_cases hi0 : i = 0
      · subst hi0
        simp
      · rw [Nat.mod_eq_of_lt (by omega : M - i < M),
          show M - i + i = M by omega]
    rw [Finset.sum_eq_single_of_mem l₀ (Finset.mem_range.mpr hl0M) ?_]
    · rw [if_pos hl0dvd]
    · intro l hl hne
      rw [Finset.mem_range] at hl
      rw [if_neg ?_, mul_zero]
      intro hcon
      apply hne
      have hdvd2 : (M : ℤ) ∣ ((l : ℤ) - (l₀ : ℤ)) := by
        have hsub := Int.dvd_sub hcon hl0dvd
        have heq : (((l : ℤ) - (j : ℤ) + (i : ℤ)) -
            ((l₀ : ℤ) - (j : ℤ) + (i : ℤ))) = (l : ℤ) - (l₀ : ℤ) := by
          ring
        rwa [heq] at hsub
      have habs : |(l : ℤ) - (l₀ : ℤ)| < (M : ℤ) := by
        rw [abs_lt]
        constructor <;> omega
      have := Int.eq_zero_of_abs_lt_dvd hdvd2 habs
      omega
  have hA : (∑ k ∈ Finset.range M,
      ((∑ j ∈ Finset.range M,
          x j * Complex.exp (-(2 * Real.pi * Complex.I) * j * k / M)) *
        (starRingEnd ℂ) (∑ j ∈ Finset.range M,
          x j * Complex.exp (-(2 * Real.pi * Complex.I) * j * k / M)) *
        Complex.exp (2 * Real.pi * Complex.I * k * i / M)))
      = ∑ j ∈ Finset.range M, x j * x ((j + (M - i) % M) % M) * M := by
    calc (∑ k ∈ Finset.range M,
        ((∑ j ∈ Finset.range M,
            x j * Complex.exp (-(2 * Real.pi * Complex.I) * j * k / M)) *
          (starRingEnd ℂ) (∑ j ∈ Finset.range M,
            x j * Complex.exp (-(2 * Real.pi * Complex.I) * j * k / M)) *
          Complex.exp (2 * Real.pi * Complex.I * k * i / M)))
        = ∑ k ∈ Finset.range M, ∑ j ∈ Finset.range M, ∑ l ∈ Finset.range M,
            x j * x l * Complex.exp (2 * Real.pi * Complex.I *
              ((((l : ℤ) - (j : ℤ) + (i : ℤ)) : ℤ) : ℂ) * k / M) :=
          Finset.sum_congr rfl hstep1
      _ = ∑ j ∈ Finset.range M, ∑ k ∈ Finset.range M, ∑ l ∈ Finset.range M,
            x j * x l * Complex.exp (2 * Real.pi * Complex.I *
              ((((l : ℤ) - (j : ℤ) + (i : ℤ)) : ℤ) : ℂ) * k / M) :=
          Finset.sum_comm
      _ = ∑ j ∈ Finset.range M, ∑ l ∈ Finset.range M, ∑ k ∈ Finset.range M,
            x j * x l * Complex.exp (2 * Real.pi * Complex.I *
              ((((l : ℤ) - (j : ℤ) + (i : ℤ)) : ℤ) : ℂ) * k / M) :=
          Finset.sum_congr rfl fun j _ => Finset.sum_comm
      _ = ∑ j ∈ Finset.range M, ∑ l ∈ Finset.range M, x j * x l *
            (if (M : ℤ) ∣ ((l : ℤ) - (j : ℤ) + (i : ℤ)) then (M : ℂ)
              else 0) := by
          refine Finset.sum_congr rfl fun j _ => ?_
          refine Finset.sum_congr rfl fun l _ => ?_
          rw [← Finset.mul_sum,
            exp_orthog M hM ((l : ℤ) - (j : ℤ) + (i : ℤ))]
      _ = ∑ j ∈ Finset.range M, x j * x ((j + (M - i) % M) % M) * M :=
          Finset.sum_congr rfl hcollapse
  rw [hA, ← Finset.sum_mul,
    show ((M : ℂ))⁻¹ * ((∑ j ∈ Finset.range M,
        x j * x ((j + (M - i) % M) % M)) * M)
      = ∑ j ∈ Finset.range M, x j * x ((j + (M - i) % M) % M) by
      field_simp,
    circ_shift x M i hM hi,
    show (∑ j ∈ Finset.range M, x j * x ((j + i) % M))
      = ((circAutocorr s M i : ℝ) : ℂ) by
      rw [circAutocorr, Complex.ofReal_sum]
      exact Finset.sum_congr rfl fun j _ => (Complex.ofReal_mul _ _).symm]
  exact Complex.ofReal_re _

end DftJustification

section RingLemmas

variable {α : Type} [LinearOrderedField α] [FloorRing α]

/-- Start index of the in-order read after `n` pushes into a ring of
capacity `C`: 0 before the first wrap, the write head afterwards. -/
def ringStart (n C : ℕ) : ℕ := if n < C then 0 else n % C

theorem pushAll_append (b : ActivationBuffer α) (xs : List (α × α))
    (x : α × α) :
    b.pushAll (xs ++ [x]) = (b.pushAll xs).push x.1 x.2 := by
  simp [ActivationBuffer.pushAll]

theorem push_maxFrames (b : ActivationBuffer α) (x y : α) :
    (b.push x y).maxFrames = b.maxFrames := by
  simp only [ActivationBuffer.push]
  split <;> rfl

theorem push_interval (b : ActivationBuffer α) (x y : α) :
    (b.push x y).bpmComputeInterval = b.bpmComputeInterval := by
  simp only [ActivationBuffer.push]
  split <;> rfl

theorem push_head (b : ActivationBuffer α) (x y : α) :
    (b.push x y).head = (b.head + 1) % b.maxFrames := by
  simp only [ActivationBuffer.push]
  split <;> rfl

theorem push_count (b : ActivationBuffer α) (x y : α) :
    (b.push x y).count =
      if b.count < b.maxFrames then b.count + 1 else b.count := by
  simp only [ActivationBuffer.push]
  split <;> rfl

theorem push_beat (b : ActivationBuffer α) (x y : α) :
    (b.push x y).beatActivations = b.beatActivations.set b.head x := by
  simp only [ActivationBuffer.push]
  split <;> rfl

theorem push_down (b : ActivationBuffer α) (x y : α) :
    (b.push x y).downbeatActivations = b.downbeatActivations.set b.head y := by
  simp only [ActivationBuffer.push]
  split <;> rfl

/-- Ring-shape invariant after `n` pushes into a cleared buffer of capacity
`C`: head and count positions, array lengths, and — the heart of C6 — every
readable slot holds the right pushed value, oldest first. -/
def RingInv (C : ℕ) (xs : List (α × α)) (b : ActivationBuffer α) : Prop :=
  b.maxFrames = C ∧ b.head = xs.length % C ∧ b.count = min xs.length C ∧
  b.beatActivations.length = C ∧ b.downbeatActivations.length = C ∧
  ∀ i, i < min xs.length C →
    b.beatActivations.getD ((ringStart xs.length C + i) % C) 0 =
      (xs.map Prod.fst).getD (xs.length - min xs.length C + i) 0 ∧
    b.downbeatActivations.getD ((ringStart xs.length C + i) % C) 0 =
      (xs.map Prod.snd).getD (xs.length - min xs.length C + i) 0

theorem ringInv_push {C : ℕ} (hC : 0 < C) {xs : List (α × α)}
    {b : ActivationBuffer α} (h : RingInv C xs b) (x : α × α) :
    RingInv C (xs ++ [x]) (b.push x.1 x.2) := by
  obtain ⟨hM, hh, hc, hbl, hdl, hinv⟩ := h
  set n := xs.length with hn
  have hn' : (xs ++ [x]).length = n + 1 := by simp [hn]
  refine ⟨?_, ?_, ?_, ?_, ?_, ?_⟩
  · rw [push_maxFrames, hM]
  · rw [push_head, hM, hh, hn', Nat.mod_add_mod]
  · rw [push_count, hM, hc, hn']
    rcases Nat.lt_or_ge n C with hlt | hge
    · rw [if_pos (by omega : min n C < C)]
      omega
    · rw [if_neg (by omega : ¬ min n C < C)]
      omega
  · rw [push_beat, List.length_set, hbl]
  · rw [push_down, List.length_set, hdl]
  · intro i hi
    rw [hn'] at hi ⊢
    rw [push_beat, push_down, hh]
    rcases Nat.lt_or_ge n C with hlt | hge
    · -- not yet wrapped: head writes at index n, start stays 0
      have hmin : min n C = n := by omega
      have hmin' : min (n + 1) C = n + 1 := by omega
      have hstart' : ringStart (n + 1) C = 0 := by
        unfold ringStart
        rcases Nat.lt_or_ge (n + 1) C with h1 | h1
        · rw [if_pos h1]
        · have : n + 1 = C := by omega
          rw [if_neg (by omega), this, Nat.mod_self]
      have hnc : n % C = n := Nat.mod_eq_of_lt hlt
      rw [hmin'] at hi
      rw [hstart', hnc]
      have hiC : (0 + i) % C = i := by
        rw [Nat.zero_add, Nat.mod_eq_of_lt (by omega)]
      rw [hiC]
      rcases Nat.lt_or_ge i n with hin | hin
      · -- old entries unchanged
        have hne : n ≠ i := by omega
        constructor
        · rw [List.getD_eq_getElem?_getD, List.getElem?_set_ne hne,
            ← List.getD_eq_getElem?_getD]
          have := (hinv i (by omega)).1
          rw [hmin] at this
          have h0 : ringStart n C = 0 := by unfold ringStart; rw [if_pos hlt]
          rw [h0] at this
          rw [hiC] at this
          rw [this]
          have hlen : ((xs.map Prod.fst)).length = n := by simp [hn]
          rw [List.map_append]
          rw [getD_append_left _ _ _ (by simp [hn]; omega)]
          congr 1
          omega
        · rw [List.getD_eq_getElem?_getD, List.getElem?_set_ne hne,
            ← List.getD_eq_getElem?_getD]
          have := (hinv i (by omega)).2
          rw [hmin] at this
          have h0 : ringStart n C = 0 := by unfold ringStart; rw [if_pos hlt]
          rw [h0] at this
          rw [hiC] at this
          rw [this]
          rw [List.map_append]
          rw [getD_append_left _ _ _ (by simp [hn]; omega)]
          congr 1
          omega
      · -- the new entry at index n
        have hin' : i = n := by omega
        subst hin'
        have hflen : (xs.map Prod.fst).length = n := by simp [hn]
        have hslen : (xs.map Prod.snd).length = n := by simp [hn]
        constructor
        · rw [List.getD_eq_getElem?_getD, List.getElem?_set_self
            (by rw [hbl]; omega)]
          simp only [Option.getD_some]
          rw [List.map_append]
          rw [List.getD_eq_getElem?_getD, List.getElem?_append_right
            (by rw [hflen]; omega)]
          have hidx0 : n + 1 - min (n + 1) C + n - (xs.map Prod.fst).length
              = 0 := by
            rw [hflen]
            omega
          rw [hidx0]
          rfl
        · rw [List.getD_eq_getElem?_getD, List.getElem?_set_self
            (by rw [hdl]; omega)]
          simp only [Option.getD_some]
          rw [List.map_append]
          rw [List.getD_eq_getElem?_getD, List.getElem?_append_right
            (by rw [hslen]; omega)]
          have hidx0 : n + 1 - min (n + 1) C + n - (xs.map Prod.snd).length
              = 0 := by
            rw [hslen]
            omega
          rw [hidx0]
          rfl
    · -- wrapped: the oldest entry (at the old head) is overwritten
      have hmin : min n C = C := by omega
      have hmin' : min (n + 1) C = C := by omega
      have hstart : ringStart n C = n % C := by
        unfold ringStart
        rw [if_neg (by omega)]
      have hstart' : ringStart (n + 1) C = (n + 1) % C := by
        unfold ringStart
        rw [if_neg (by omega)]
      rw [hmin'] at hi
      rw [hstart']
      rcases Nat.lt_or_ge i (C - 1) with hiC | hiC
      · -- survivors: mapped to old read positions shifted by one
        have hidx : ((n + 1) % C + i) % C = (n % C + (i + 1)) % C := by
          rw [Nat.mod_add_mod, Nat.mod_add_mod]
          congr 1
          omega
        have hne : n % C ≠ ((n + 1) % C + i) % C := by
          rw [Nat.mod_add_mod]
          have harr : n + 1 + i = n + (i + 1) := by omega
          rw [harr]
          intro hcon
          have hme : n ≡ n + (i + 1) [MOD C] := hcon
          have hdvd : C ∣ i + 1 := by
            have h2 := (Nat.modEq_iff_dvd' (Nat.le_add_right n (i + 1))).mp hme
            simpa using h2
          have := Nat.le_of_dvd (by omega) hdvd
          omega
        constructor
        · rw [List.getD_eq_getElem?_getD, List.getElem?_set_ne hne,
            ← List.getD_eq_getElem?_getD, hidx]
          have := (hinv (i + 1) (by omega)).1
          rw [hmin, hstart] at this
          rw [this]
          rw [List.map_append]
          rw [getD_append_left _ _ _ (by simp [hn]; omega)]
          congr 1
          omega
        · rw [List.getD_eq_getElem?_getD, List.getElem?_set_ne hne,
            ← List.getD_eq_getElem?_getD, hidx]
          have := (hinv (i + 1) (by omega)).2
          rw [hmin, hstart] at this
          rw [this]
          rw [List.map_append]
          rw [getD_append_left _ _ _ (by simp [hn]; omega)]
          congr 1
          omega
      · -- the newest entry lands at the old head position
        have hieq : i = C - 1 := by omega
        subst hieq
        have hidx : ((n + 1) % C + (C - 1)) % C = n % C := by
          rw [Nat.mod_add_mod]
          have : n + 1 + (C - 1) = n + C := by omega
          rw [this, Nat.add_mod_right]
        rw [hidx]
        constructor
        · rw [List.getD_eq_getElem?_getD, List.getElem?_set_self
            (by rw [hbl]; exact Nat.mod_lt _ hC)]
          simp only [Option.getD_some]
          rw [List.map_append]
          rw [List.getD_eq_getElem?_getD, List.getElem?_append_right
            (by simp [hn]; omega)]
          have hidx0 : n + 1 - min (n + 1) C + (C - 1) -
              (xs.map Prod.fst).length = 0 := by
            have hl : (xs.map Prod.fst).length = n := by simp [hn]
            omega
          rw [hidx0]
          rfl
        · rw [List.getD_eq_getElem?_getD, List.getElem?_set_self
            (by rw [hdl]; exact Nat.mod_lt _ hC)]
          simp only [Option.getD_some]
          rw [List.map_append]
          rw [List.getD_eq_getElem?_getD, List.getElem?_append_right
            (by simp [hn]; omega)]
          have hidx0 : n + 1 - min (n + 1) C + (C - 1) -
              (xs.map Prod.snd).length = 0 := by
            have hl : (xs.map Prod.snd).length = n := by simp [hn]
            omega
          rw [hidx0]
          rfl

/-- The ring invariant holds after any sequence of pushes into a cleared
buffer. -/
theorem ringInv_pushAll {C : ℕ} (hC : 0 < C) (b0 : ActivationBuffer α)
    (hM : b0.maxFrames = C) (hh : b0.head = 0) (hc : b0.count = 0)
    (hbl : b0.beatActivations.length = C)
    (hdl : b0.downbeatActivations.length = C) (xs : List (α × α)) :
    RingInv C xs (b0.pushAll xs) := by
  induction xs using List.reverseRecOn with
  | nil =>
    refine ⟨hM, by simpa [ActivationBuffer.pushAll] using hh,
      by simpa [ActivationBuffer.pushAll] using hc, ?_, ?_, ?_⟩
    · simpa [ActivationBuffer.pushAll] using hbl
    · simpa [ActivationBuffer.pushAll] using hdl
    · intro i hi
      simp at hi
  | append_singleton ys y ih =>
    rw [pushAll_append]
    exact ringInv_push hC ih y

/-- With the ring invariant, `extractInOrder` returns exactly the last
`min n C` pushed pairs in push order. -/
theorem extract_of_inv {C : ℕ} (hC : 0 < C) {xs : List (α × α)}
    {b : ActivationBuffer α} (h : RingInv C xs b) :
    b.extractInOrder =
      ((xs.map Prod.fst).drop (xs.length - min xs.length C),
       (xs.map Prod.snd).drop (xs.length - min xs.length C)) := by
  obtain ⟨hM, hh, hc, hbl, hdl, hinv⟩ := h
  set n := xs.length with hn
  have hstart : (if n ⊓ C < C then 0 else b.head) = ringStart n C := by
    rw [hh]
    unfold ringStart
    rcases Nat.lt_or_ge n C with hlt | hge
    · rw [if_pos (by omega), if_pos hlt]
    · rw [if_neg (by omega), if_neg (by omega)]
  unfold ActivationBuffer.extractInOrder
  simp only [hc, hM, hstart]
  rw [Prod.mk.injEq]
  constructor
  · apply List.ext_getElem
    · simp [hn]
      omega
    · intro i h1 h2
      rw [List.getElem_map, List.getElem_range, List.getElem_drop]
      have hi : i < min n C := by simpa using h1
      have := (hinv i hi).1
      rw [this]
      rw [List.getD_eq_getElem?_getD, List.getElem?_eq_getElem
        (by simp [hn]; omega)]
      rfl
  · apply List.ext_getElem
    · simp [hn]
      omega
    · intro i h1 h2
      rw [List.getElem_map, List.getElem_range, List.getElem_drop]
      have hi : i < min n C := by simpa using h1
      have := (hinv i hi).2
      rw [this]
      rw [List.getD_eq_getElem?_getD, List.getElem?_eq_getElem
        (by simp [hn]; omega)]
      rfl

theorem pushAll_interval (b : ActivationBuffer α) (xs : List (α × α)) :
    (b.pushAll xs).bpmComputeInterval = b.bpmComputeInterval := by
  induction xs using List.reverseRecOn with
  | nil => rfl
  | append_singleton ys y ih => rw [pushAll_append, push_interval, ih]

theorem pushAll_comp (b : ActivationBuffer α) (xs ys : List (α × α)) :
    b.pushAll (xs ++ ys) = (b.pushAll xs).pushAll ys := by
  simp [ActivationBuffer.pushAll]

end RingLemmas

/-! ### Claim C6 -/

/-- C6.  After any `n` pushes into a cleared ring of capacity `C`, the ring
holds exactly the last `min n C` pushed pairs (`size`), and `extractInOrder`
returns exactly those pairs in chronological push order — the oldest entry
having been overwritten once `n` exceeds `C` — regardless of wrap-around. -/
theorem C6_ring_order {α : Type} [LinearOrderedField α] [FloorRing α]
    (b : ActivationBuffer α) (hC : 0 < b.maxFrames)
    (hbl : b.beatActivations.length = b.maxFrames)
    (hdl : b.downbeatActivations.length = b.maxFrames)
    (xs : List (α × α)) :
    (b.clear.pushAll xs).size = min xs.length b.maxFrames ∧
      (b.clear.pushAll xs).extractInOrder =
        ((xs.map Prod.fst).drop (xs.length - min xs.length b.maxFrames),
         (xs.map Prod.snd).drop (xs.length - min xs.length b.maxFrames)) := by
  have hinv := ringInv_pushAll hC b.clear rfl rfl rfl hbl hdl xs
  exact ⟨hinv.2.2.1, extract_of_inv hC hinv⟩

/-- C6 (witness): three pushes into a capacity-2 ring keep the last two
pairs, in order. -/
theorem C6_ring_order_witness :
    ((ActivationBuffer.init (α := ℚ) 2).clear.pushAll
        [(1, 2), (3, 4), (5, 6)]).extractInOrder = ([3, 5], [4, 6]) := by
  have h := (C6_ring_order (ActivationBuffer.init (α := ℚ) 2) (by decide)
    (by decide) (by decide) [(1, 2), (3, 4), (5, 6)]).2
  exact h.trans rfl

section CacheLemmas

variable {α : Type} [LinearOrderedField α] [FloorRing α]

theorem pushRaw_count (b : ActivationBuffer α) (x y : α) :
    (b.pushRaw x y).count =
      if b.count < b.maxFrames then b.count + 1 else b.count := rfl

theorem pushRaw_frames (b : ActivationBuffer α) (x y : α) :
    (b.pushRaw x y).framesSinceLastCompute =
      b.framesSinceLastCompute + 1 := rfl

theorem pushRaw_cache (b : ActivationBuffer α) (x y : α) :
    (b.pushRaw x y).cachedBpm = b.cachedBpm := rfl

theorem push_eq (b : ActivationBuffer α) (x y : α) :
    b.push x y =
      if MIN_FRAMES_FOR_BPM ≤ (b.pushRaw x y).count ∧
          (b.pushRaw x y).bpmComputeInterval ≤
            (b.pushRaw x y).framesSinceLastCompute then
        (b.pushRaw x y).recomputeBpm
      else b.pushRaw x y := rfl

theorem extract_recompute (b : ActivationBuffer α) :
    b.recomputeBpm.extractInOrder = b.extractInOrder := rfl

theorem recompute_frames (b : ActivationBuffer α) :
    b.recomputeBpm.framesSinceLastCompute = 0 := rfl

theorem recompute_cache (b : ActivationBuffer α) :
    b.recomputeBpm.cachedBpm =
      AutocorrBpmEstimator.estimate
        b.extractInOrder.1 b.extractInOrder.2 true := rfl

theorem push_extract_eq (b : ActivationBuffer α) (x y : α) :
    (b.push x y).extractInOrder = (b.pushRaw x y).extractInOrder := by
  rw [push_eq]
  split
  · rw [extract_recompute]
  · rfl

/-- Cache cadence invariant for a ring of capacity at least
`MIN_FRAMES_FOR_BPM`: after `n` pushes from the cleared state the cadence
counter is `n` below the 100-push threshold and `(n-100) mod 25` beyond it,
and the cached BPM is 0 below the threshold and otherwise the estimate taken
over the ring contents as of push `m = n - (n-100) mod 25` — the most recent
recomputation point. -/
theorem cachedBpm_of_pushAll (C : ℕ) (hC : 100 ≤ C)
    (b0 : ActivationBuffer α) (hM : b0.maxFrames = C) (hh : b0.head = 0)
    (hc : b0.count = 0) (hcb : b0.cachedBpm = 0)
    (hf : b0.framesSinceLastCompute = 0) (hiv : b0.bpmComputeInterval = 25)
    (hbl : b0.beatActivations.length = C)
    (hdl : b0.downbeatActivations.length = C) (xs : List (α × α)) :
    (b0.pushAll xs).framesSinceLastCompute =
        (if xs.length < 100 then xs.length else (xs.length - 100) % 25) ∧
      (b0.pushAll xs).cachedBpm =
        (if xs.length < 100 then 0 else
          AutocorrBpmEstimator.estimate
            (((xs.take (xs.length - (xs.length - 100) % 25)).map Prod.fst).drop
              (xs.length - (xs.length - 100) % 25 -
                min (xs.length - (xs.length - 100) % 25) C))
            (((xs.take (xs.length - (xs.length - 100) % 25)).map Prod.snd).drop
              (xs.length - (xs.length - 100) % 25 -
                min (xs.length - (xs.length - 100) % 25) C))
            true) := by
  induction xs using List.reverseRecOn with
  | nil =>
    constructor
    · simpa [ActivationBuffer.pushAll] using hf
    · simpa [ActivationBuffer.pushAll] using hcb
  | append_singleton ys y ih =>
    have hinv := ringInv_pushAll (by omega) b0 hM hh hc hbl hdl ys
    have hinv' := ringInv_pushAll (by omega) b0 hM hh hc hbl hdl (ys ++ [y])
    set n := ys.length with hn
    have hn' : (ys ++ [y]).length = n + 1 := by simp [hn]
    have hcount : (b0.pushAll ys).count = min n C := hinv.2.2.1
    have hmaxF : (b0.pushAll ys).maxFrames = C := hinv.1
    have hint : (b0.pushAll ys).bpmComputeInterval = 25 := by
      rw [pushAll_interval, hiv]
    rw [pushAll_append, push_eq]
    have hc1 : ((b0.pushAll ys).pushRaw y.1 y.2).count = min (n + 1) C := by
      rw [pushRaw_count, hcount, hmaxF]
      rcases Nat.lt_or_ge n C with hlt | hge
      · rw [if_pos (by omega)]
        omega
      · rw [if_neg (by omega)]
        omega
    have hf1 : ((b0.pushAll ys).pushRaw y.1 y.2).framesSinceLastCompute =
        (if n < 100 then n else (n - 100) % 25) + 1 := by
      rw [pushRaw_frames, ih.1]
    have hint1 : ((b0.pushAll ys).pushRaw y.1 y.2).bpmComputeInterval = 25 :=
      hint
    rw [hn']
    by_cases hfire : MIN_FRAMES_FOR_BPM ≤ min (n + 1) C ∧
        (25 : ℕ) ≤ (if n < 100 then n else (n - 100) % 25) + 1
    · -- recomputation fires at this push
      have hfire' : MIN_FRAMES_FOR_BPM ≤ ((b0.pushAll ys).pushRaw y.1 y.2).count ∧
          ((b0.pushAll ys).pushRaw y.1 y.2).bpmComputeInterval ≤
            ((b0.pushAll ys).pushRaw y.1 y.2).framesSinceLastCompute := by
        rw [hc1, hf1, hint1]
        exact hfire
      rw [if_pos hfire']
      have h100 : 100 ≤ n + 1 := by
        have := hfire.1
        simp only [MIN_FRAMES_FOR_BPM] at this
        omega
      have hmod0 : (n + 1 - 100) % 25 = 0 := by
        have h2 := hfire.2
        rcases Nat.lt_or_ge n 100 with hlt | hge
        · rw [if_pos hlt] at h2
          omega
        · rw [if_neg (by omega)] at h2
          omega
      constructor
      · rw [recompute_frames, if_neg (by omega), hmod0]
      · rw [recompute_cache]
        have hx : ((b0.pushAll ys).pushRaw y.1 y.2).extractInOrder =
            (b0.pushAll (ys ++ [y])).extractInOrder := by
          rw [pushAll_append, push_extract_eq]
        rw [hx, extract_of_inv (by omega) hinv']
        rw [if_neg (by omega), hmod0, hn']
        simp only [Nat.sub_zero]
        have htake : (ys ++ [y]).take (n + 1) = ys ++ [y] := by
          rw [← hn']
          exact List.take_length _
        rw [htake]
    · -- no recomputation at this push
      have hfire' : ¬ (MIN_FRAMES_FOR_BPM ≤ ((b0.pushAll ys).pushRaw y.1 y.2).count ∧
          ((b0.pushAll ys).pushRaw y.1 y.2).bpmComputeInterval ≤
            ((b0.pushAll ys).pushRaw y.1 y.2).framesSinceLastCompute) := by
        rw [hc1, hf1, hint1]
        exact hfire
      rw [if_neg hfire']
      simp only [MIN_FRAMES_FOR_BPM] at hfire
      rcases Nat.lt_or_ge (n + 1) 100 with hlt | hge
      · -- still below the threshold
        constructor
        · rw [pushRaw_frames, ih.1, if_pos (by omega), if_pos hlt]
        · rw [pushRaw_cache, ih.2, if_pos (by omega), if_pos hlt]
      · -- beyond the threshold but off-cadence
        have hnofire2 : ¬ (25 : ℕ) ≤ (if n < 100 then n else (n - 100) % 25) + 1 := by
          intro hcon
          exact hfire ⟨by omega, hcon⟩
        have hn100 : 100 ≤ n := by
          rcases Nat.lt_or_ge n 100 with h1 | h1
          · rw [if_pos h1] at hnofire2
            omega
          · exact h1
        rw [if_neg (by omega)] at hnofire2
        have hmodeq : (n + 1 - 100) % 25 = (n - 100) % 25 + 1 := by omega
        constructor
        · rw [pushRaw_frames, ih.1, if_neg (by omega), if_neg (by omega),
            hmodeq]
        · rw [pushRaw_cache, ih.2, if_neg (by omega), if_neg (by omega)]
          have hm : n + 1 - (n + 1 - 100) % 25 = n - (n - 100) % 25 := by
            omega
          rw [hm]
          have htake : (ys ++ [y]).take (n - (n - 100) % 25) =
              ys.take (n - (n - 100) % 25) := by
            apply List.take_append_of_le_length
            omega
          rw [htake]

end CacheLemmas

/-! ### Claim C5 -/

/-- C5.  For any sequence of pushes into a cleared activation ring of
capacity at least 100 (the engine uses 512), the cached BPM is 0 while fewer
than 100 activations have ever been stored; once 100 are stored it is
recomputed from the ring contents on every 25th push — the cache after `n`
pushes equals the estimator applied to the ring contents as of push
`m = n - (n-100) mod 25`, the latest of the recomputation pushes
`100, 125, 150, …`; the cadence counter equals `(n-100) mod 25` there. -/
theorem C5_cached_bpm {α' : Type} [LinearOrderedField α'] [FloorRing α']
    (b : ActivationBuffer α') (hC : 100 ≤ b.maxFrames)
    (hbl : b.beatActivations.length = b.maxFrames)
    (hdl : b.downbeatActivations.length = b.maxFrames)
    (hiv : b.bpmComputeInterval = 25) (xs : List (α' × α')) :
    (b.clear.pushAll xs).getCachedBpm =
        (if xs.length < 100 then 0 else
          AutocorrBpmEstimator.estimate
            (((xs.take (xs.length - (xs.length - 100) % 25)).map Prod.fst).drop
              (xs.length - (xs.length - 100) % 25 -
                min (xs.length - (xs.length - 100) % 25) b.maxFrames))
            (((xs.take (xs.length - (xs.length - 100) % 25)).map Prod.snd).drop
              (xs.length - (xs.length - 100) % 25 -
                min (xs.length - (xs.length - 100) % 25) b.maxFrames))
            true) ∧
      (b.clear.pushAll xs).framesSinceLastCompute =
        (if xs.length < 100 then xs.length else (xs.length - 100) % 25) := by
  have h := cachedBpm_of_pushAll b.maxFrames hC b.clear rfl rfl rfl rfl rfl
    hiv hbl hdl xs
  exact ⟨h.2, h.1⟩

/-- C5 (witness): 99 pushes into a cleared capacity-100 ring leave the
cached BPM at 0. -/
theorem C5_cached_bpm_witness :
    ((ActivationBuffer.init (α := ℚ) 100).clear.pushAll
        (List.replicate 99 (0, 0))).getCachedBpm = 0 := by
  have h := (C5_cached_bpm (ActivationBuffer.init (α := ℚ) 100)
    (by simp [ActivationBuffer.init]) (by simp [ActivationBuffer.init])
    (by simp [ActivationBuffer.init]) rfl (List.replicate 99 (0, 0))).1
  simpa using h

/-! ### Claim C2: the estimator's peak selection -/

section PeakLemmas

variable {α : Type} [LinearOrderedField α]

/-- Characterisation of the strict-update fold of the peak search: it
returns the first (least-index) maximiser over the scanned range,
relative to the initial candidate. -/
theorem peakFold (a : ℕ → α) :
    ∀ (len s : ℕ) (q : ℕ × α), q.2 = a q.1 → q.1 ≤ s →
      ((List.range' s len).foldl
          (fun p i => if a i > p.2 then (i, a i) else p) q).2 =
        a ((List.range' s len).foldl
          (fun p i => if a i > p.2 then (i, a i) else p) q).1 ∧
      (((List.range' s len).foldl
          (fun p i => if a i > p.2 then (i, a i) else p) q) = q ∨
        (s ≤ ((List.range' s len).foldl
            (fun p i => if a i > p.2 then (i, a i) else p) q).1 ∧
         ((List.range' s len).foldl
            (fun p i => if a i > p.2 then (i, a i) else p) q).1 < s + len ∧
         a q.1 < a ((List.range' s len).foldl
            (fun p i => if a i > p.2 then (i, a i) else p) q).1)) ∧
      (∀ i, s ≤ i → i < s + len →
        a i ≤ a ((List.range' s len).foldl
          (fun p i => if a i > p.2 then (i, a i) else p) q).1) ∧
      (∀ i, s ≤ i → i < s + len →
        i < ((List.range' s len).foldl
          (fun p i => if a i > p.2 then (i, a i) else p) q).1 →
        a i < a ((List.range' s len).foldl
          (fun p i => if a i > p.2 then (i, a i) else p) q).1)
  | 0, s, q, hq, hq1 => by
    refine ⟨by simpa using hq, Or.inl (by simp), ?_, ?_⟩ <;>
      · intro i h1 h2
        omega
  | len + 1, s, q, hq, hq1 => by
    rw [List.range'_succ, List.foldl_cons]
    by_cases hgt : a s > q.2
    · -- the scan head improves on the current candidate
      rw [if_pos hgt]
      rw [hq] at hgt
      have ih := peakFold a len (s + 1) (s, a s) rfl (by omega)
      obtain ⟨ih1, ih2, ih3, ih4⟩ := ih
      set r := (List.range' (s + 1) len).foldl
        (fun p i => if a i > p.2 then (i, a i) else p) (s, a s) with hr
      have hle : a s ≤ a r.1 := by
        rcases ih2 with h | h
        · rw [h]
        · exact le_of_lt h.2.2
      refine ⟨ih1, ?_, ?_, ?_⟩
      · right
        rcases ih2 with h | h
        · rw [h]
          exact ⟨le_rfl, by omega, hgt⟩
        · exact ⟨by omega, by omega, lt_of_lt_of_le hgt hle⟩
      · intro i h1 h2
        rcases Nat.eq_or_lt_of_le h1 with h | h
        · rw [← h]
          exact hle
        · exact ih3 i (by omega) (by omega)
      · intro i h1 h2 h3
        rcases Nat.eq_or_lt_of_le h1 with h | h
        · subst h
          rcases ih2 with hcase | hcase
          · rw [hcase] at h3
            omega
          · exact hcase.2.2
        · exact ih4 i (by omega) (by omega) h3
    · -- no improvement: candidate unchanged
      rw [if_neg hgt]
      rw [hq] at hgt
      have ih := peakFold a len (s + 1) q hq (by omega)
      obtain ⟨ih1, ih2, ih3, ih4⟩ := ih
      set r := (List.range' (s + 1) len).foldl
        (fun p i => if a i > p.2 then (i, a i) else p) q with hr
      have hq'le : a q.1 ≤ a r.1 := by
        rcases ih2 with h | h
        · rw [h]
        · exact le_of_lt h.2.2
      refine ⟨ih1, ?_, ?_, ?_⟩
      · rcases ih2 with h | h
        · exact Or.inl h
        · exact Or.inr ⟨by omega, by omega, h.2.2⟩
      · intro i h1 h2
        rcases Nat.eq_or_lt_of_le h1 with h | h
        · rw [← h]
          exact le_trans (not_lt.mp hgt) hq'le
        · exact ih3 i (by omega) (by omega)
      · intro i h1 h2 h3
        rcases Nat.eq_or_lt_of_le h1 with h | h
        · subst h
          rcases ih2 with hcase | hcase
          · rw [hcase] at h3
            omega
          · exact lt_of_le_of_lt (not_lt.mp hgt) hcase.2.2
        · exact ih4 i (by omega) (by omega) h3

/-- The peak search of `estimate` returns the least-index maximiser over the
half-open range `[minLag, maxLag)`. -/
theorem peakSearch_spec (a : ℕ → α) (minLag maxLag : ℕ)
    (h : minLag < maxLag) :
    minLag ≤ (peakSearch a minLag maxLag).1 ∧
    (peakSearch a minLag maxLag).1 < maxLag ∧
    (∀ i, minLag ≤ i → i < maxLag → a i ≤ a (peakSearch a minLag maxLag).1) ∧
    (∀ i, minLag ≤ i → i < (peakSearch a minLag maxLag).1 →
      a i < a (peakSearch a minLag maxLag).1) := by
  have hf := peakFold a (maxLag - (minLag + 1)) (minLag + 1) (minLag, a minLag)
    rfl (by omega)
  obtain ⟨h1, h2, h3, h4⟩ := hf
  unfold peakSearch
  set r := (List.range' (minLag + 1) (maxLag - (minLag + 1))).foldl
    (fun p i => if a i > p.2 then (i, a i) else p) (minLag, a minLag) with hr
  have hsum : minLag + 1 + (maxLag - (minLag + 1)) = maxLag := by omega
  rw [hsum] at h2 h3 h4
  refine ⟨?_, ?_, ?_, ?_⟩
  · rcases h2 with h' | h'
    · rw [h']
    · omega
  · rcases h2 with h' | h'
    · rw [h']
      omega
    · omega
  · intro i hi1 hi2
    rcases Nat.eq_or_lt_of_le hi1 with h' | h'
    · rw [← h']
      rcases h2 with h'' | h''
      · rw [h'']
      · exact le_of_lt h''.2.2
    · exact h3 i (by omega) hi2
  · intro i hi1 hi2
    rcases Nat.eq_or_lt_of_le hi1 with h' | h'
    · rw [← h']
      rcases h2 with h'' | h''
      · rw [h''] at hi2
        omega
      · exact h''.2.2
    · have hrlt : r.1 < maxLag := by
        rcases h2 with h'' | h''
        · rw [h'']
          omega
        · omega
      exact h4 i (by omega) (by omega) hi2

end PeakLemmas

/-- Property of a selected lag `p` as the amended claim C2 states it, for
the estimator run on `(beat, down)`: `p` is the least-index maximiser of the
autocorrelation over the half-open range `[16, lag_max)` with
`lag_max = min(50, N-1)`, and the estimate (octave correction off) equals
`round(60*50 / refined)` where the parabolic refinement is applied exactly
when the centre strictly exceeds both neighbours and the curvature magnitude
exceeds `1e-8`. -/
def estimatePeakSpec {α : Type} [LinearOrderedField α] [FloorRing α]
    (beat down : List α) (p : ℕ) : Prop :=
  16 ≤ p ∧
  p < (if beat.length ≤ 50 then beat.length - 1 else 50) ∧
  (∀ i, 16 ≤ i → i < (if beat.length ≤ 50 then beat.length - 1 else 50) →
    (computeAutocorrelationFFT (List.zipWith (· + ·) beat down)).getD i 0 ≤
    (computeAutocorrelationFFT (List.zipWith (· + ·) beat down)).getD p 0) ∧
  (∀ i, 16 ≤ i → i < p →
    (computeAutocorrelationFFT (List.zipWith (· + ·) beat down)).getD i 0 <
    (computeAutocorrelationFFT (List.zipWith (· + ·) beat down)).getD p 0) ∧
  AutocorrBpmEstimator.estimate beat down false =
    rround (60 * 50 /
      (if (computeAutocorrelationFFT
            (List.zipWith (· + ·) beat down)).getD (p - 1) 0 <
          (computeAutocorrelationFFT
            (List.zipWith (· + ·) beat down)).getD p 0 ∧
          (computeAutocorrelationFFT
            (List.zipWith (· + ·) beat down)).getD (p + 1) 0 <
          (computeAutocorrelationFFT
            (List.zipWith (· + ·) beat down)).getD p 0 then
        if 1 / 100000000 <
            |(computeAutocorrelationFFT
                (List.zipWith (· + ·) beat down)).getD (p - 1) 0 -
              2 * (computeAutocorrelationFFT
                (List.zipWith (· + ·) beat down)).getD p 0 +
              (computeAutocorrelationFFT
                (List.zipWith (· + ·) beat down)).getD (p + 1) 0| then
          (p : α) + 1 / 2 *
            ((computeAutocorrelationFFT
                (List.zipWith (· + ·) beat down)).getD (p - 1) 0 -
              (computeAutocorrelationFFT
                (List.zipWith (· + ·) beat down)).getD (p + 1) 0) /
            ((computeAutocorrelationFFT
                (List.zipWith (· + ·) beat down)).getD (p - 1) 0 -
              2 * (computeAutocorrelationFFT
                (List.zipWith (· + ·) beat down)).getD p 0 +
              (computeAutocorrelationFFT
                (List.zipWith (· + ·) beat down)).getD (p + 1) 0)
        else (p : α)
      else (p : α)))

/-- C2 (amended).  For activation inputs of `N ≥ 50` frames the estimator
selects the least-index maximiser of the autocorrelation over the HALF-OPEN
range `[lag_min, lag_max)` with `lag_min = ⌊50·60/180⌋ = 16` and
`lag_max = min(⌊50·60/60⌋, N−1)` — the upper endpoint `lag_max` itself is
never examined; it refines by parabolic interpolation exactly when the
centre strictly exceeds both neighbours AND the curvature magnitude
`|y0 − 2·y1 + y2|` exceeds `1e-8`; and the returned value before octave
correction is `round(60·50 / refined_lag)` with halves rounded away from
zero.  (`estimatePeakSpec` spells this out.) -/
theorem C2_estimate_peak {α : Type} [LinearOrderedField α] [FloorRing α]
    (beat down : List α) (hlen : 50 ≤ beat.length) :
    ∃ p : ℕ, estimatePeakSpec beat down p := by
  set a : ℕ → α := fun i =>
    (computeAutocorrelationFFT (List.zipWith (· + ·) beat down)).getD i 0
    with ha
  set maxLag : ℕ := if beat.length ≤ 50 then beat.length - 1 else 50
    with hmax
  have hmaxgt : 16 < maxLag := by
    rw [hmax]
    split <;> omega
  have hmaxle : maxLag ≤ beat.length - 1 := by
    rw [hmax]
    split <;> omega
  obtain ⟨hp1, hp2, hp3, hp4⟩ := peakSearch_spec a 16 maxLag hmaxgt
  refine ⟨(peakSearch a 16 maxLag).1, hp1, hp2, hp3, hp4, ?_⟩
  unfold AutocorrBpmEstimator.estimate
  rw [if_neg (by omega)]
  simp only
  rw [if_neg (by omega : ¬ maxLag ≤ 16)]
  rw [if_pos (by constructor <;> omega :
    0 < (peakSearch a 16 maxLag).1 ∧
      (peakSearch a 16 maxLag).1 < beat.length - 1)]
  simp only [Bool.false_eq_true, false_and, if_false]

/-- Tempo selection exactly as claim C2 words it, for comparison with
`AutocorrBpmEstimator.estimate`: the integer lag of maximum autocorrelation
over the CLOSED range `[lag_min, lag_max]`, parabolic refinement exactly when
the centre sample strictly exceeds both neighbours (no further guard), and
`bpm = round(60·50/refined_lag)`. -/
def specClosedRangeEstimate {α : Type} [LinearOrderedField α] [FloorRing α]
    (beat down : List α) : α :=
  let numFrames := beat.length
  let signal := List.zipWith (· + ·) beat down
  let autocorr := computeAutocorrelationFFT signal
  let a : ℕ → α := fun i => autocorr.getD i 0
  let minLag : ℕ := 16
  let maxLag : ℕ := min 50 (numFrames - 1)
  let p := ((List.range' (minLag + 1) (maxLag + 1 - (minLag + 1))).foldl
    (fun q i => if a i > q.2 then (i, a i) else q) (minLag, a minLag)).1
  let refined : α :=
    if a (p - 1) < a p ∧ a (p + 1) < a p then
      (p : α) + 1 / 2 * (a (p - 1) - a (p + 1)) /
        (a (p - 1) - 2 * a p + a (p + 1))
    else (p : α)
  rround (60 * 50 / refined)

/-- The 51-frame activation train with impulses at frames 0 and 50: its
autocorrelation over the admissible lags is maximal at lag 50 — the closed
upper endpoint that the implementation never examines. -/
def exBeat : List ℚ := 1 :: (List.replicate 49 0 ++ [1])

/-- All-zero downbeat activations accompanying `exBeat`. -/
def exDown : List ℚ := List.replicate 51 0

section C2Eval

theorem getD_range_map {α : Type} [LinearOrderedField α] (f : ℕ → α)
    (n i : ℕ) (h : i < n) : ((List.range n).map f).getD i 0 = f i := by
  simp [List.getD_eq_getElem?_getD, List.getElem?_map, List.getElem?_range, h]

theorem foldl_peak_no_update {α : Type} [LinearOrderedField α] (a : ℕ → α)
    (l : List ℕ) (q : ℕ × α) (h : ∀ i ∈ l, ¬ a i > q.2) :
    l.foldl (fun p i => if a i > p.2 then (i, a i) else p) q = q := by
  induction l with
  | nil => rfl
  | cons x xs ih =>
    rw [List.foldl_cons, if_neg (h x (List.mem_cons_self _ _))]
    exact ih (fun i hi => h i (List.mem_cons_of_mem _ hi))

theorem exBeat_length : exBeat.length = 51 := by simp [exBeat]

theorem exBeat_getD_zero : exBeat.getD 0 0 = 1 := rfl

theorem exBeat_getD_fifty : exBeat.getD 50 0 = 1 := rfl

theorem exBeat_getD_other (j : ℕ) (h0 : j ≠ 0) (h50 : j ≠ 50) :
    exBeat.getD j 0 = 0 := by
  match j with
  | 0 => exact absurd rfl h0
  | j + 1 =>
    have hstep : exBeat.getD (j + 1) 0 =
        (List.replicate 49 (0 : ℚ) ++ [1]).getD j 0 := rfl
    rw [hstep]
    rcases Nat.lt_or_ge j 49 with hlt | hge
    · rw [getD_append_left _ _ _ (by simp; omega)]
      rw [List.getD_eq_getElem?_getD, List.getElem?_replicate, if_pos hlt]
      rfl
    · rcases Nat.lt_or_ge j 50 with h49 | hout
      · omega
      · apply List.getD_eq_default
        simp
        omega

theorem signal_eq : List.zipWith (· + ·) exBeat exDown = exBeat := by
  have hz : ∀ l : List ℚ, List.zipWith (· + ·) l (List.replicate l.length 0) = l := by
    intro l
    induction l with
    | nil => rfl
    | cons x xs ih => simp [List.replicate_succ, ih]
  have h2 : exDown = List.replicate exBeat.length 0 := by
    rw [exBeat_length]
    rfl
  rw [h2, hz]

theorem circ_ex (i : ℕ) : circAutocorr exBeat 128 i =
    exBeat.getD (i % 128) 0 + exBeat.getD ((50 + i) % 128) 0 := by
  unfold circAutocorr
  have hsub : ({0, 50} : Finset ℕ) ⊆ Finset.range 128 := by decide
  rw [← Finset.sum_subset hsub (by
    intro x hx hnx
    simp only [Finset.mem_insert, Finset.mem_singleton] at hnx
    push_neg at hnx
    rw [exBeat_getD_other x hnx.1 hnx.2, zero_mul])]
  rw [Finset.sum_insert (by decide), Finset.sum_singleton]
  rw [exBeat_getD_zero, exBeat_getD_fifty]
  rw [show (0 + i) % 128 = i % 128 by omega]
  ring

theorem circ_ex_zero : circAutocorr exBeat 128 0 = 2 := by
  rw [circ_ex]
  rw [show (0 : ℕ) % 128 = 0 by norm_num, show (50 + 0) % 128 = 50 by norm_num]
  rw [exBeat_getD_zero, exBeat_getD_fifty]
  norm_num

theorem circ_ex_fifty : circAutocorr exBeat 128 50 = 1 := by
  rw [circ_ex]
  rw [show (50 : ℕ) % 128 = 50 by norm_num,
    show (50 + 50) % 128 = 100 by norm_num]
  rw [exBeat_getD_fifty, exBeat_getD_other 100 (by norm_num) (by norm_num)]
  norm_num

theorem circ_ex_mid (i : ℕ) (h1 : 15 ≤ i) (h2 : i ≤ 51) (h3 : i ≠ 50) :
    circAutocorr exBeat 128 i = 0 := by
  rw [circ_ex]
  rw [Nat.mod_eq_of_lt (by omega), Nat.mod_eq_of_lt (by omega)]
  rw [exBeat_getD_other i (by omega) h3,
    exBeat_getD_other (50 + i) (by omega) (by omega)]
  norm_num

theorem cafft_length {α : Type} [LinearOrderedField α] (s : List α) :
    (computeAutocorrelationFFT s).length = s.length := by
  simp [computeAutocorrelationFFT]

/-- The autocorrelation entries of the counterexample signal. -/
theorem exA_eq (i : ℕ) (h : i < 51) :
    (computeAutocorrelationFFT exBeat).getD i 0 =
      circAutocorr exBeat 128 i / (2 + 1 / 100000000) := by
  simp only [computeAutocorrelationFFT, exBeat_length]
  rw [show nextPow2 (2 * 51) = 128 from rfl]
  rw [getD_range_map _ _ _ h, circ_ex_zero]

theorem exA_mid (i : ℕ) (h1 : 15 ≤ i) (h2 : i < 50) :
    (computeAutocorrelationFFT exBeat).getD i 0 = 0 := by
  rw [exA_eq i (by omega), circ_ex_mid i h1 (by omega) (by omega), zero_div]

theorem exA_fifty : (computeAutocorrelationFFT exBeat).getD 50 0 =
    1 / (2 + 1 / 100000000) := by
  rw [exA_eq 50 (by omega), circ_ex_fifty]

theorem exA_fiftyone : (computeAutocorrelationFFT exBeat).getD 51 0 = 0 := by
  apply List.getD_eq_default
  rw [cafft_length, exBeat_length]

theorem exA_fifty_pos : 0 < (computeAutocorrelationFFT exBeat).getD 50 0 := by
  rw [exA_fifty]
  positivity

end C2Eval

set_option maxRecDepth 4000 in
/-- C2 (counterexample).  On the 51-frame impulse train `exBeat` the
autocorrelation is maximal (over the closed range [16, 50]) at lag 50, so
the claim's closed-range selection yields round(3000/50) = 60 BPM; the
implementation scans only [16, 50) where the autocorrelation is identically
zero, keeps the initial lag 16, and returns round(3000/16) = 188 BPM. -/
theorem C2_counterexample :
    AutocorrBpmEstimator.estimate exBeat exDown false = 188 ∧
      specClosedRangeEstimate exBeat exDown = 60 := by
  have ha16 : (computeAutocorrelationFFT exBeat).getD 16 0 = 0 :=
    exA_mid 16 (by omega) (by omega)
  constructor
  · -- the implementation's value
    unfold AutocorrBpmEstimator.estimate
    rw [signal_eq, exBeat_length]
    rw [if_neg (by omega)]
    simp only
    have hmax : (if (51 : ℕ) ≤ 50 then 51 - 1 else 50) = 50 := by norm_num
    rw [hmax]
    rw [if_neg (by omega : ¬ (50 : ℕ) ≤ 16)]
    have hpeak : peakSearch
        (fun i => (computeAutocorrelationFFT exBeat).getD i 0) 16 50 =
        (16, (computeAutocorrelationFFT exBeat).getD 16 0) := by
      unfold peakSearch
      apply foldl_peak_no_update
      intro i hi
      rw [List.mem_range'_1] at hi
      simp only
      rw [exA_mid i (by omega) (by omega), ha16]
      norm_num
    have hpeak1 : (peakSearch
        (fun i => (computeAutocorrelationFFT exBeat).getD i 0) 16 50).1 =
        16 := by
      rw [hpeak]
    rw [hpeak1]
    rw [if_pos (by norm_num : (0 : ℕ) < 16 ∧ (16 : ℕ) < 51 - 1)]
    rw [show (16 : ℕ) - 1 = 15 from rfl, show (16 : ℕ) + 1 = 17 from rfl]
    rw [exA_mid 15 (by omega) (by omega), exA_mid 17 (by omega) (by omega),
      ha16]
    rw [if_neg (by norm_num : ¬ ((0 : ℚ) < 0 ∧ (0 : ℚ) < 0))]
    rw [if_neg (fun hcon => absurd hcon.1 Bool.false_ne_true)]
    have hval : (60 * 50 / ((16 : ℕ) : ℚ) : ℚ) = 375 / 2 := by
      push_cast
      norm_num
    rw [hval]
    unfold rround
    rw [if_pos (by norm_num : (0 : ℚ) ≤ 375 / 2)]
    have hsum : (375 / 2 : ℚ) + 1 / 2 = ((188 : ℤ) : ℚ) := by norm_num
    rw [hsum, Int.floor_intCast]
    norm_num
  · -- the claim's closed-range value
    unfold specClosedRangeEstimate
    rw [signal_eq, exBeat_length]
    simp only
    have hcnt : min 50 (51 - 1) + 1 - (16 + 1) = 34 := by norm_num
    have hrange : List.range' (16 + 1) 34 = List.range' 17 33 ++ [50] := by
      rw [show (34 : ℕ) = 33 + 1 from rfl, List.range'_concat]
    rw [hcnt, hrange, List.foldl_append]
    have hfold : (List.range' 17 33).foldl
        (fun q i => if (computeAutocorrelationFFT exBeat).getD i 0 > q.2
          then (i, (computeAutocorrelationFFT exBeat).getD i 0) else q)
        (16, (computeAutocorrelationFFT exBeat).getD 16 0) =
        (16, (computeAutocorrelationFFT exBeat).getD 16 0) :=
      foldl_peak_no_update _ _ _ (by
        intro i hi
        rw [List.mem_range'_1] at hi
        simp only
        rw [exA_mid i (by omega) (by omega), ha16]
        norm_num)
    rw [hfold]
    rw [List.foldl_cons, List.foldl_nil]
    have hgt : (computeAutocorrelationFFT exBeat).getD 50 0 >
        ((16 : ℕ), (computeAutocorrelationFFT exBeat).getD 16 0).2 := by
      show (computeAutocorrelationFFT exBeat).getD 16 0 <
        (computeAutocorrelationFFT exBeat).getD 50 0
      rw [ha16]
      exact exA_fifty_pos
    rw [if_pos hgt]
    have hp1 : (((50 : ℕ), (computeAutocorrelationFFT exBeat).getD 50 0)).1
        = 50 := rfl
    rw [hp1]
    rw [show (50 : ℕ) - 1 = 49 from rfl, show (50 : ℕ) + 1 = 51 from rfl,
      exA_mid 49 (by omega) (by omega), exA_fiftyone]
    rw [if_pos (And.intro exA_fifty_pos exA_fifty_pos)]
    have hzero : (1 : ℚ) / 2 * ((0 : ℚ) - 0) /
        (0 - 2 * (computeAutocorrelationFFT exBeat).getD 50 0 + 0) = 0 := by
      rw [show ((0 : ℚ) - 0) = 0 by norm_num, mul_zero, zero_div]
    rw [hzero, add_zero]
    have hval : (60 * 50 / ((50 : ℕ) : ℚ) : ℚ) = 60 := by
      push_cast
      norm_num
    rw [hval]
    unfold rround
    rw [if_pos (by norm_num)]
    have hfl : ⌊(60 : ℚ) + 1 / 2⌋ = 60 := by
      rw [Int.floor_eq_iff]
      norm_num
    rw [hfl]
    norm_num

/-- C2 (witness for the amended theorem): the amended characterisation
applied to the concrete 51-frame input. -/
theorem C2_estimate_peak_witness :
    ∃ p : ℕ, estimatePeakSpec exBeat exDown p :=
  C2_estimate_peak exBeat exDown (by rw [exBeat_length]; omega)

/-! ## Engine (`Engine.cpp` / `Engine.hpp`)

The orchestrator couples the components embedded above (resampler,
activation ring) with four external components that live outside this
repository's arithmetic: the streaming mel extractor, the BeatNet ONNX
model, the streaming CQT extractor and the key CNN.  We abstract those as
an oracle environment `EngineEnv` of unconstrained deterministic state
machines; every theorem below holds for every environment, so it holds in
particular for the real extractors and models. -/

section EngineDefs

variable {α : Type} [LinearOrderedField α] [FloorRing α] {μ ν κ : Type}

/-- `Engine::KEY_MIN_FRAMES = 100`: minimum accumulated CQT frames before
the first key inference. -/
def KEY_MIN_FRAMES : ℕ := 100

/-- `Engine::KEY_INFERENCE_INTERVAL = 25`: key inference cadence in CQT
frames after the first inference. -/
def KEY_INFERENCE_INTERVAL : ℕ := 25

/-- Output of a successful `KeyModel::inferVariable` call (`KeyOutput`).
The C++ field `notation` is renamed `notationLabel` (`notation` is a Lean
keyword). -/
structure KeyOutput (α : Type) where
  camelot : String
  notationLabel : String
  confidence : α

/-- `Engine::KeyResult`: the stored key detection result.  The C++ field
`notation` is renamed `notationLabel`. -/
structure KeyResult (α : Type) where
  camelot : String
  notationLabel : String
  confidence : α
  valid : Bool

/-- Oracle environment for the engine's external components.
`melPush`/`cqtPush` are the streaming feature extractors
(`StreamingMelExtractor::push` / `StreamingCqtExtractor::push`): state in,
samples and a frame cap in, new state and a list of produced frames out.
`beatInfer` is one `OnnxModel::infer` call on one feature frame (the model
carries LSTM state); `none` models an inference failure, in which case the
frame is skipped.  `keyInfer` is `KeyModel::inferVariable` over the whole
accumulated CQT matrix (the CNN is stateless); `none` models failure.
`coeffs` is the resampler's FIR coefficient table, and the `*Init` fields
are the components' post-reset states. -/
structure EngineEnv (α : Type) (μ ν κ : Type) where
  coeffs : ℕ → α
  melInit : μ
  beatInit : ν
  cqtInit : κ
  melPush : μ → List α → ℕ → μ × List (List α)
  beatInfer : ν → List α → ν × Option (α × α)
  cqtPush : κ → List α → ℕ → κ × List (List α)
  keyInfer : List (List α) → Option (KeyOutput α)

/-- The engine's mutable state (the private fields of `Engine`).
`beatReady`/`keyReady` are `isReady()` / `isKeyReady()`; the CQT buffer is
kept as a list of frames (the C++ flat `cqtBuffer_` in row-major frame
order). -/
structure EngineState (α : Type) (μ ν κ : Type) where
  beatReady : Bool
  keyReady : Bool
  melState : μ
  beatState : ν
  cqtState : κ
  resampler : ResamplerState α
  ring : ActivationBuffer α
  cqtBuffer : List (List α)
  cqtFrameCount : ℕ
  cqtFramesSinceInference : ℕ
  keyInferenceCount : ℕ
  currentKey : KeyResult α

/-- `Engine::getBpm`. -/
def Engine.getBpm (s : EngineState α μ ν κ) : α := s.ring.getCachedBpm

/-- `Engine::getFrameCount`. -/
def Engine.getFrameCount (s : EngineState α μ ν κ) : ℕ := s.ring.size

/-- `Engine::getKey`. -/
def Engine.getKey (s : EngineState α μ ν κ) : KeyResult α := s.currentKey

/-- `Engine::getKeyFrameCount`. -/
def Engine.getKeyFrameCount (s : EngineState α μ ν κ) : ℕ := s.cqtFrameCount

/-- `Engine::reset`: clear the ring and the resampler history, reset the
external components to their initial states, drop the CQT matrix and
counters, and invalidate the stored key. -/
def Engine.reset (env : EngineEnv α μ ν κ) (s : EngineState α μ ν κ) :
    EngineState α μ ν κ :=
  { s with
    melState := env.melInit
    beatState := env.beatInit
    cqtState := env.cqtInit
    resampler := ResamplerState.init
    ring := s.ring.clear
    cqtBuffer := []
    cqtFrameCount := 0
    cqtFramesSinceInference := 0
    keyInferenceCount := 0
    currentKey := ⟨"", "", 0, false⟩ }

/-- `Engine::runKeyInference` (Engine.cpp lines 132–146): bail out unless
the key model is ready and at least `KEY_MIN_FRAMES` CQT frames are
accumulated; then run the key CNN over the whole matrix and, only on
success, bump the inference counter, reset the per-interval frame counter
and replace the stored key result. -/
def Engine.runKeyInference (env : EngineEnv α μ ν κ)
    (s : EngineState α μ ν κ) : EngineState α μ ν κ :=
  if s.keyReady = false ∨ s.cqtFrameCount < KEY_MIN_FRAMES then s
  else
    match env.keyInfer s.cqtBuffer with
    | none => s
    | some o =>
      { s with
        keyInferenceCount := s.keyInferenceCount + 1
        cqtFramesSinceInference := 0
        currentKey := ⟨o.camelot, o.notationLabel, o.confidence, true⟩ }

/-- The CQT frame-accumulation step of `Engine::processAudio` (Engine.cpp
lines 160–180): push the samples through the CQT extractor with frame cap
20, append the produced frames to the matrix and bump both frame
counters. -/
def Engine.keyAccum (env : EngineEnv α μ ν κ) (s : EngineState α μ ν κ)
    (samples : List α) : EngineState α μ ν κ :=
  { s with
    cqtState := (env.cqtPush s.cqtState samples 20).1
    cqtBuffer := s.cqtBuffer ++ (env.cqtPush s.cqtState samples 20).2
    cqtFrameCount :=
      s.cqtFrameCount + (env.cqtPush s.cqtState samples 20).2.length
    cqtFramesSinceInference :=
      s.cqtFramesSinceInference + (env.cqtPush s.cqtState samples 20).2.length }

/-- The schedule condition of `Engine::processAudio` (`shouldRunInference`,
Engine.cpp lines 183–185), evaluated on the state after frame
accumulation. -/
def Engine.keyTrigger (s : EngineState α μ ν κ) : Prop :=
  KEY_MIN_FRAMES ≤ s.cqtFrameCount ∧
    (s.keyInferenceCount = 0 ∨
      KEY_INFERENCE_INTERVAL ≤ s.cqtFramesSinceInference)

instance (s : EngineState α μ ν κ) : Decidable (Engine.keyTrigger s) := by
  unfold Engine.keyTrigger
  infer_instance

/-- The key-detection half of `Engine::processAudio` (Engine.cpp lines
156–191): when the key model is loaded, accumulate the produced CQT
frames and run key inference when the schedule condition holds. -/
def Engine.keySide (env : EngineEnv α μ ν κ) (s : EngineState α μ ν κ)
    (samples : List α) : EngineState α μ ν κ :=
  if s.keyReady = true then
    if Engine.keyTrigger (Engine.keyAccum env s samples) then
      Engine.runKeyInference env (Engine.keyAccum env s samples)
    else Engine.keyAccum env s samples
  else s

/-- The per-frame loop of `Engine::processAudioForBpm` (Engine.cpp lines
230–256): for each mel frame run BeatNet; on failure skip the frame
(`continue`); on success push the activation pair into the ring, count it
in `totalProduced`, and copy it out while the output buffer has room.
Returns (model state, ring, totalProduced, resultsProduced). -/
def Engine.bpmLoop (env : EngineEnv α μ ν κ) :
    List (List α) → ν → ActivationBuffer α → ℕ → ℕ → Bool → ℕ →
      ν × ActivationBuffer α × ℕ × ℕ
  | [], bs, ring, total, copied, _, _ => (bs, ring, total, copied)
  | f :: rest, bs, ring, total, copied, hasOut, maxResults =>
    match env.beatInfer bs f with
    | (bs1, none) =>
      Engine.bpmLoop env rest bs1 ring total copied hasOut maxResults
    | (bs1, some bd) =>
      Engine.bpmLoop env rest bs1 (ring.push bd.1 bd.2) (total + 1)
        (if hasOut = true ∧ copied < maxResults then copied + 1 else copied)
        hasOut maxResults

/-- `Engine::processAudioForBpm` (Engine.cpp lines 212–257): no-op
returning 0 when BeatNet is not loaded; otherwise run the mel extractor
(frame cap 64, its state advances even when no frame is produced), return
0 if no frames, else run the per-frame loop and return `resultsProduced`
when an output buffer was passed and `totalProduced` otherwise.  `hasOut`
stands for `outResults != nullptr`. -/
def Engine.processAudioForBpm (env : EngineEnv α μ ν κ)
    (s : EngineState α μ ν κ) (samples : List α) (hasOut : Bool)
    (maxResults : ℕ) : ℕ × EngineState α μ ν κ :=
  if s.beatReady = false then (0, s)
  else
    let mp := env.melPush s.melState samples 64
    if mp.2.length = 0 then (0, { s with melState := mp.1 })
    else
      let r := Engine.bpmLoop env mp.2 s.beatState s.ring 0 0 hasOut
        maxResults
      (if hasOut = true then r.2.2.2 else r.2.2.1,
       { s with melState := mp.1, beatState := r.1, ring := r.2.1 })

/-- `Engine::processAudio` (Engine.cpp lines 152–210): key pipeline first,
then — only if BeatNet is loaded — resample the block in streaming mode
with output capacity `getOutputSize(numSamples) + 64` and feed the
produced samples to the BPM pipeline. -/
def Engine.processAudio (env : EngineEnv α μ ν κ) (s : EngineState α μ ν κ)
    (samples : List α) (hasOut : Bool) (maxResults : ℕ) :
    ℕ × EngineState α μ ν κ :=
  let s1 := Engine.keySide env s samples
  if s1.beatReady = false then (0, s1)
  else
    let rr := Resampler.processStreaming env.coeffs s1.resampler samples
      (Resampler.getOutputSize samples.length + 64)
    Engine.processAudioForBpm env { s1 with resampler := rr.2 } rr.1
      hasOut maxResults

/-- A sequence of `processAudio` calls: each list entry is
(samples, output buffer passed?, maxResults). -/
def Engine.runCalls (env : EngineEnv α μ ν κ) :
    EngineState α μ ν κ → List (List α × Bool × ℕ) → EngineState α μ ν κ
  | s, [] => s
  | s, c :: rest =>
    Engine.runCalls env (Engine.processAudio env s c.1 c.2.1 c.2.2).2 rest

end EngineDefs

section EngineLemmas

variable {α : Type} [LinearOrderedField α] [FloorRing α] {μ ν κ : Type}

/-- `runKeyInference` touches only the key result and the two key
counters: every other engine field is preserved. -/
theorem runKeyInference_fields (env : EngineEnv α μ ν κ)
    (s : EngineState α μ ν κ) :
    (Engine.runKeyInference env s).beatReady = s.beatReady ∧
    (Engine.runKeyInference env s).keyReady = s.keyReady ∧
    (Engine.runKeyInference env s).melState = s.melState ∧
    (Engine.runKeyInference env s).beatState = s.beatState ∧
    (Engine.runKeyInference env s).resampler = s.resampler ∧
    (Engine.runKeyInference env s).ring = s.ring ∧
    (Engine.runKeyInference env s).cqtBuffer = s.cqtBuffer ∧
    (Engine.runKeyInference env s).cqtFrameCount = s.cqtFrameCount := by
  unfold Engine.runKeyInference
  split
  · exact ⟨rfl, rfl, rfl, rfl, rfl, rfl, rfl, rfl⟩
  · cases hk : env.keyInfer s.cqtBuffer with
    | none => exact ⟨rfl, rfl, rfl, rfl, rfl, rfl, rfl, rfl⟩
    | some o => exact ⟨rfl, rfl, rfl, rfl, rfl, rfl, rfl, rfl⟩

/-- With the key model absent, the key half of `processAudio` is the
identity. -/
theorem keySide_not_ready (env : EngineEnv α μ ν κ)
    (s : EngineState α μ ν κ) (samples : List α) (h : s.keyReady = false) :
    Engine.keySide env s samples = s := by
  unfold Engine.keySide
  rw [h]
  simp

/-- The key half of `processAudio` preserves every BPM-side field. -/
theorem keySide_bpm_fields (env : EngineEnv α μ ν κ)
    (s : EngineState α μ ν κ) (samples : List α) :
    (Engine.keySide env s samples).beatReady = s.beatReady ∧
    (Engine.keySide env s samples).melState = s.melState ∧
    (Engine.keySide env s samples).beatState = s.beatState ∧
    (Engine.keySide env s samples).resampler = s.resampler ∧
    (Engine.keySide env s samples).ring = s.ring := by
  unfold Engine.keySide
  split
  · split
    · have h := runKeyInference_fields env (Engine.keyAccum env s samples)
      exact ⟨h.1, h.2.2.1, h.2.2.2.1, h.2.2.2.2.1, h.2.2.2.2.2.1⟩
    · exact ⟨rfl, rfl, rfl, rfl, rfl⟩
  · exact ⟨rfl, rfl, rfl, rfl, rfl⟩

/-- The BPM half (`processAudioForBpm`) preserves every key-side field. -/
theorem processAudioForBpm_key_fields (env : EngineEnv α μ ν κ)
    (s : EngineState α μ ν κ) (samples : List α) (hasOut : Bool)
    (maxResults : ℕ) :
    (Engine.processAudioForBpm env s samples hasOut maxResults).2.currentKey
        = s.currentKey ∧
    (Engine.processAudioForBpm env s samples hasOut
        maxResults).2.keyInferenceCount = s.keyInferenceCount ∧
    (Engine.processAudioForBpm env s samples hasOut
        maxResults).2.cqtFramesSinceInference = s.cqtFramesSinceInference ∧
    (Engine.processAudioForBpm env s samples hasOut
        maxResults).2.cqtFrameCount = s.cqtFrameCount := by
  unfold Engine.processAudioForBpm
  split
  · exact ⟨rfl, rfl, rfl, rfl⟩
  · simp only
    split
    · exact ⟨rfl, rfl, rfl, rfl⟩
    · exact ⟨rfl, rfl, rfl, rfl⟩

/-- The key-side observables of a `processAudio` call are exactly those of
its key half. -/
theorem processAudio_key_fields (env : EngineEnv α μ ν κ)
    (s : EngineState α μ ν κ) (samples : List α) (hasOut : Bool)
    (maxResults : ℕ) :
    (Engine.processAudio env s samples hasOut maxResults).2.currentKey
        = (Engine.keySide env s samples).currentKey ∧
    (Engine.processAudio env s samples hasOut
        maxResults).2.keyInferenceCount
        = (Engine.keySide env s samples).keyInferenceCount ∧
    (Engine.processAudio env s samples hasOut
        maxResults).2.cqtFramesSinceInference
        = (Engine.keySide env s samples).cqtFramesSinceInference ∧
    (Engine.processAudio env s samples hasOut
        maxResults).2.cqtFrameCount
        = (Engine.keySide env s samples).cqtFrameCount := by
  unfold Engine.processAudio
  simp only
  split
  · exact ⟨rfl, rfl, rfl, rfl⟩
  · exact processAudioForBpm_key_fields env _ _ hasOut maxResults

/-- Loop invariant of `Engine::processAudioForBpm`'s per-frame loop:
some list of produced activation pairs is pushed into the ring in order,
`totalProduced` counts them all, and `resultsProduced` saturates at
`maxResults`. -/
theorem bpmLoop_spec (env : EngineEnv α μ ν κ) (frames : List (List α)) :
    ∀ (bs : ν) (ring : ActivationBuffer α) (total copied : ℕ)
      (hasOut : Bool) (maxResults : ℕ), copied ≤ maxResults →
    ∃ pairs : List (α × α),
      (Engine.bpmLoop env frames bs ring total copied hasOut
          maxResults).2.1 = ring.pushAll pairs ∧
      (Engine.bpmLoop env frames bs ring total copied hasOut
          maxResults).2.2.1 = total + pairs.length ∧
      (Engine.bpmLoop env frames bs ring total copied hasOut
          maxResults).2.2.2 =
        (if hasOut = true then min (copied + pairs.length) maxResults
          else copied) := by
  induction frames with
  | nil =>
    intro bs ring total copied hasOut maxResults hc
    refine ⟨[], rfl, by simp [Engine.bpmLoop], ?_⟩
    cases hasOut <;> simp [Engine.bpmLoop] <;> omega
  | cons f rest ih =>
    intro bs ring total copied hasOut maxResults hc
    rcases hbi : env.beatInfer bs f with ⟨bs1, out⟩
    cases out with
    | none =>
      obtain ⟨pairs, h1, h2, h3⟩ :=
        ih bs1 ring total copied hasOut maxResults hc
      refine ⟨pairs, ?_, ?_, ?_⟩ <;>
        simp only [Engine.bpmLoop, hbi] <;> assumption
    | some bd =>
      have hc1 : (if hasOut = true ∧ copied < maxResults then copied + 1
          else copied) ≤ maxResults := by
        split <;> omega
      obtain ⟨pairs, h1, h2, h3⟩ :=
        ih bs1 (ring.push bd.1 bd.2) (total + 1)
          (if hasOut = true ∧ copied < maxResults then copied + 1
            else copied) hasOut maxResults hc1
      refine ⟨bd :: pairs, ?_, ?_, ?_⟩
      · simp only [Engine.bpmLoop, hbi]
        exact h1
      · simp only [Engine.bpmLoop, hbi]
        rw [h2, List.length_cons]
        omega
      · simp only [Engine.bpmLoop, hbi]
        rw [h3, List.length_cons]
        cases hasOut with
        | false => simp
        | true =>
          simp only [true_and, if_true]
          split <;> omega

/-- `processAudioForBpm` pushes some list of pairs into the ring and
returns their count — capped at `maxResults` when an output buffer is
passed. -/
theorem processAudioForBpm_spec (env : EngineEnv α μ ν κ)
    (s : EngineState α μ ν κ) (samples : List α) (hasOut : Bool)
    (maxResults : ℕ) :
    ∃ pairs : List (α × α),
      (Engine.processAudioForBpm env s samples hasOut
          maxResults).2.ring = s.ring.pushAll pairs ∧
      (Engine.processAudioForBpm env s samples hasOut maxResults).1 =
        (if hasOut = true then min pairs.length maxResults
          else pairs.length) := by
  unfold Engine.processAudioForBpm
  split
  · exact ⟨[], rfl, by cases hasOut <;> simp⟩
  · simp only
    split
    · exact ⟨[], rfl, by cases hasOut <;> simp⟩
    · obtain ⟨pairs, h1, h2, h3⟩ :=
        bpmLoop_spec env (env.melPush s.melState samples 64).2 s.beatState
          s.ring 0 0 hasOut maxResults (Nat.zero_le _)
      refine ⟨pairs, h1, ?_⟩
      cases hasOut with
      | false => simpa using h2
      | true => simpa using h3

/-- `processAudio` pushes some list of pairs into the ring and returns
their count — capped at `maxResults` when an output buffer is passed. -/
theorem processAudio_ring_return (env : EngineEnv α μ ν κ)
    (s : EngineState α μ ν κ) (samples : List α) (hasOut : Bool)
    (maxResults : ℕ) :
    ∃ pairs : List (α × α),
      (Engine.processAudio env s samples hasOut maxResults).2.ring =
        s.ring.pushAll pairs ∧
      (Engine.processAudio env s samples hasOut maxResults).1 =
        (if hasOut = true then min pairs.length maxResults
          else pairs.length) := by
  have hks := (keySide_bpm_fields env s samples).2.2.2.2
  unfold Engine.processAudio
  simp only
  split
  · exact ⟨[], hks.symm ▸ rfl, by cases hasOut <;> simp⟩
  · obtain ⟨pairs, h1, h2⟩ := processAudioForBpm_spec env
      { Engine.keySide env s samples with
        resampler := (Resampler.processStreaming env.coeffs
          (Engine.keySide env s samples).resampler samples
          (Resampler.getOutputSize samples.length + 64)).2 }
      (Resampler.processStreaming env.coeffs
        (Engine.keySide env s samples).resampler samples
        (Resampler.getOutputSize samples.length + 64)).1 hasOut maxResults
    refine ⟨pairs, ?_, h2⟩
    rw [h1]
    show (Engine.keySide env s samples).ring.pushAll pairs = _
    rw [hks]

/-- Over any sequence of `processAudio` calls, the ring evolves by pushing
some list of activation pairs. -/
theorem runCalls_ring (env : EngineEnv α μ ν κ)
    (calls : List (List α × Bool × ℕ)) :
    ∀ s : EngineState α μ ν κ, ∃ pairs : List (α × α),
      (Engine.runCalls env s calls).ring = s.ring.pushAll pairs := by
  induction calls with
  | nil => exact fun s => ⟨[], rfl⟩
  | cons c rest ih =>
    intro s
    obtain ⟨p1, hp1, _⟩ := processAudio_ring_return env s c.1 c.2.1 c.2.2
    obtain ⟨p2, hp2⟩ := ih (Engine.processAudio env s c.1 c.2.1 c.2.2).2
    refine ⟨p1 ++ p2, ?_⟩
    show (Engine.runCalls env
      (Engine.processAudio env s c.1 c.2.1 c.2.2).2 rest).ring = _
    rw [hp2, hp1, pushAll_comp]

end EngineLemmas

/-! ## Mel filterbank (`MelExtractor.cpp`)

`LogFilterbank::LogFilterbank(1411, 22050, 24, 30, 17000, true)` builds the
log-spaced triangular filterbank.  Machine floats are modelled as exact
reals; the float log2/pow pipeline becomes `Real.logb` / real rpow.  A
computable integer mirror (`…C` definitions) represents each candidate
centre frequency `440·2^(k/24)` by its exponent `k` and decides every
float comparison of the source exactly, by raising both sides to the 24th
power; the bridge theorems prove the mirror equal to the real pipeline. -/

section MelDefs

/-- Bin frequencies (`binFrequencies[i] = i * sampleRate / (numBins_ * 2)`
with `numBins_ = fftSize / 2 = 705`). -/
noncomputable def fftFreq (i : ℕ) : ℝ := i * 22050 / (705 * 2)

/-- One log-spaced candidate frequency `fRef * 2^(k / bandsPerOctave)`,
indexed by its integer exponent `k`. -/
noncomputable def freqOf (k : ℤ) : ℝ := 440 * (2 : ℝ) ^ ((k : ℝ) / 24)

/-- `left = (int)std::floor(std::log2(fMin / fRef) * bandsPerOctave)`. -/
noncomputable def melLeft : ℤ := ⌊Real.logb 2 (30 / 440) * 24⌋

/-- `right = (int)std::ceil(std::log2(fMax / fRef) * bandsPerOctave)`. -/
noncomputable def melRight : ℤ := ⌈Real.logb 2 (17000 / 440) * 24⌉

/-- The exponents `left, left+1, …, right-1` of all generated candidate
frequencies (`for (int i = left; i < right; i++)`). -/
noncomputable def melExpsAll : List ℤ :=
  (List.range (melRight - melLeft).toNat).map (fun j => melLeft + j)

open Classical in
/-- Exponents of the frequencies kept by the `f >= fMin && f <= fMax`
filter of `logFrequencies`. -/
noncomputable def melExps : List ℤ :=
  melExpsAll.filter (fun k => decide (30 ≤ freqOf k ∧ freqOf k ≤ 17000))

open Classical in
/-- `std::lower_bound(binFrequencies.begin(), binFrequencies.end(), freq)`:
on the sorted bin-frequency array the insertion index is the number of bin
frequencies strictly below the key. -/
noncomputable def lbIdx (k : ℤ) : ℕ :=
  ((List.range 705).filter (fun i => decide (fftFreq i < freqOf k))).length

open Classical in
/-- One step of `frequencies2bins`: clip the insertion index to
`[1, numBins-1] = [1, 704]`, then move to the left neighbour iff it is
strictly closer (`freq - left < right - freq`). -/
noncomputable def binFor (k : ℤ) : ℕ :=
  let idx := max 1 (min (lbIdx k) 704)
  if freqOf k - fftFreq (idx - 1) < fftFreq idx - freqOf k then idx - 1
  else idx

/-- The duplicate-removal pass of `frequencies2bins` (`uniqueBins = true`):
keep an index iff it differs from the previously kept one. -/
def dedupConsec : List ℕ → List ℕ :=
  List.foldl (fun u i => if u.getLast? = some i then u else u ++ [i]) []

/-- The deduplicated bin list handed to the triangular-filter loop. -/
noncomputable def melBins : List ℕ := dedupConsec (melExps.map binFor)

/-- Computable mirror of the comparison `a · 2^(k/24) < b` (`a`, `b`
naturals): raise both sides to the 24th power. -/
def expLtB (a : ℕ) (k : ℤ) (b : ℕ) : Bool :=
  if 0 ≤ k then decide (a ^ 24 * 2 ^ k.toNat < b ^ 24)
  else decide (a ^ 24 < b ^ 24 * 2 ^ (-k).toNat)

/-- Computable mirror of the comparison `b < a · 2^(k/24)`. -/
def expGtB (a : ℕ) (k : ℤ) (b : ℕ) : Bool :=
  if 0 ≤ k then decide (b ^ 24 < a ^ 24 * 2 ^ k.toNat)
  else decide (b ^ 24 * 2 ^ (-k).toNat < a ^ 24)

/-- Computable mirror of `melExps` (with the endpoints `left = -93`,
`right = 127` and the range filter decided by `expLtB`/`expGtB`). -/
def melExpsC : List ℤ :=
  ((List.range 220).map (fun j => -93 + (j : ℤ))).filter
    (fun k => !expLtB 440 k 30 && !expGtB 440 k 17000)

/-- The binary search of `std::lower_bound` over `[first, first + len)`,
with explicit fuel (the loop halves `len`, so fuel 16 covers `len ≤ 705`):
`p i` decides `binFrequencies[i] < value`. -/
def lowerBoundGo (p : ℕ → Bool) : ℕ → ℕ → ℕ → ℕ
  | 0, first, _ => first
  | fuel + 1, first, len =>
    if len = 0 then first
    else
      let half := len / 2
      if p (first + half) then
        lowerBoundGo p fuel (first + half + 1) (len - half - 1)
      else lowerBoundGo p fuel first half

/-- Computable mirror of `lbIdx`, running `std::lower_bound`'s binary
search itself: `binFrequencies[i] < freq` iff `735·i < 20680·2^(k/24)`. -/
def lbIdxC (k : ℤ) : ℕ :=
  lowerBoundGo (fun i => expGtB 20680 k (735 * i)) 16 0 705

/-- Computable mirror of `binFor`: the midpoint comparison
`freq - left < right - freq` becomes `880·47·2^(k/24) < 735·(2·idx-1)`. -/
def binForC (k : ℤ) : ℕ :=
  let idx := max 1 (min (lbIdxC k) 704)
  if expLtB 41360 k (735 * (2 * idx - 1)) then idx - 1 else idx

/-- Computable mirror of `melBins`. -/
def melBinsC : List ℕ := dedupConsec (melExpsC.map binForC)

/-- The 219 exponents surviving the `[fMin, fMax]` range filter
(`k = -92, …, 126`), as a literal list. -/
def melExpsLit : List ℤ :=
  [-92, -91, -90, -89, -88, -87, -86, -85, -84, -83, -82, -81, -80, -79, -78,
   -77, -76, -75, -74, -73, -72, -71, -70, -69, -68, -67, -66, -65, -64, -63,
   -62, -61, -60, -59, -58, -57, -56, -55, -54, -53, -52, -51, -50, -49, -48,
   -47, -46, -45, -44, -43, -42, -41, -40, -39, -38, -37, -36, -35, -34, -33,
   -32, -31, -30, -29, -28, -27, -26, -25, -24, -23, -22, -21, -20, -19, -18,
   -17, -16, -15, -14, -13, -12, -11, -10, -9, -8, -7, -6, -5, -4, -3, -2, -1,
   0, 1, 2, 3, 4, 5, 6, 7, 8, 9, 10, 11, 12, 13, 14, 15, 16, 17, 18, 19, 20,
   21, 22, 23, 24, 25, 26, 27, 28, 29, 30, 31, 32, 33, 34, 35, 36, 37, 38, 39,
   40, 41, 42, 43, 44, 45, 46, 47, 48, 49, 50, 51, 52, 53, 54, 55, 56, 57, 58,
   59, 60, 61, 62, 63, 64, 65, 66, 67, 68, 69, 70, 71, 72, 73, 74, 75, 76, 77,
   78, 79, 80, 81, 82, 83, 84, 85, 86, 87, 88, 89, 90, 91, 92, 93, 94, 95, 96,
   97, 98, 99, 100, 101, 102, 103, 104, 105, 106, 107, 108, 109, 110, 111,
   112, 113, 114, 115, 116, 117, 118, 119, 120, 121, 122, 123, 124, 125, 126]

/-- The 219 bin indices (with consecutive duplicates) chosen by
`frequencies2bins`, as a literal list. -/
def melBinsLit : List ℕ :=
  [2, 2, 2, 2, 2, 2, 2, 2, 2, 3, 3, 3, 3, 3, 3, 3, 3, 3, 3, 3, 4, 4, 4, 4, 4,
   4, 4, 4, 4, 5, 5, 5, 5, 5, 5, 5, 6, 6, 6, 6, 6, 6, 7, 7, 7, 7, 7, 8, 8, 8,
   8, 9, 9, 9, 9, 10, 10, 10, 11, 11, 11, 11, 12, 12, 13, 13, 13, 14, 14, 14,
   15, 15, 16, 16, 17, 17, 18, 18, 19, 19, 20, 20, 21, 22, 22, 23, 24, 24, 25,
   26, 27, 27, 28, 29, 30, 31, 32, 33, 33, 34, 35, 36, 38, 39, 40, 41, 42, 43,
   45, 46, 47, 49, 50, 52, 53, 55, 56, 58, 60, 61, 63, 65, 67, 69, 71, 73, 75,
   77, 80, 82, 84, 87, 89, 92, 95, 97, 100, 103, 106, 109, 113, 116, 119, 123,
   126, 130, 134, 138, 142, 146, 150, 155, 159, 164, 169, 174, 179, 184, 189,
   195, 201, 206, 212, 219, 225, 232, 238, 245, 253, 260, 268, 276, 284, 292,
   300, 309, 318, 328, 337, 347, 357, 368, 379, 390, 401, 413, 425, 437, 450,
   463, 477, 491, 505, 520, 535, 551, 567, 584, 601, 619, 637, 655, 675, 694,
   704, 704, 704, 704, 704, 704, 704, 704, 704, 704, 704, 704, 704, 704, 704]

/-- The 138 deduplicated bin indices, as a literal list. -/
def melBinsUniq : List ℕ :=
  [2, 3, 4, 5, 6, 7, 8, 9, 10, 11, 12, 13, 14, 15, 16, 17, 18, 19, 20, 21, 22,
   23, 24, 25, 26, 27, 28, 29, 30, 31, 32, 33, 34, 35, 36, 38, 39, 40, 41, 42,
   43, 45, 46, 47, 49, 50, 52, 53, 55, 56, 58, 60, 61, 63, 65, 67, 69, 71, 73,
   75, 77, 80, 82, 84, 87, 89, 92, 95, 97, 100, 103, 106, 109, 113, 116, 119,
   123, 126, 130, 134, 138, 142, 146, 150, 155, 159, 164, 169, 174, 179, 184,
   189, 195, 201, 206, 212, 219, 225, 232, 238, 245, 253, 260, 268, 276, 284,
   292, 300, 309, 318, 328, 337, 347, 357, 368, 379, 390, 401, 413, 425, 437,
   450, 463, 477, 491, 505, 520, 535, 551, 567, 584, 601, 619, 637, 655, 675,
   694, 704]

end MelDefs

section MelEval

set_option maxRecDepth 1000000 in
set_option maxHeartbeats 4000000 in
theorem melExpsC_eq_lit : melExpsC = melExpsLit := by decide

set_option maxRecDepth 1000000 in
set_option maxHeartbeats 4000000 in
theorem melBinsLit_eq : melExpsLit.map binForC = melBinsLit := by decide

set_option maxRecDepth 100000 in
theorem melBinsUniq_eq : dedupConsec melBinsLit = melBinsUniq := by decide

theorem melBinsC_eq : melBinsC = melBinsUniq := by
  unfold melBinsC
  rw [melExpsC_eq_lit, melBinsLit_eq, melBinsUniq_eq]

set_option maxRecDepth 100000 in
theorem melBinsUniq_facts : melBinsUniq.length = 138 ∧
    (∀ i, i < 137 → melBinsUniq.getD i 0 < melBinsUniq.getD (i + 1) 0) ∧
    (∀ i, i < 138 → 1 ≤ melBinsUniq.getD i 0 ∧ melBinsUniq.getD i 0 ≤ 704) := by
  decide

end MelEval

section MelBridge

/-- Raising `2^(n/24)` to the 24th power yields `2^n` exactly. -/
theorem rpow_div24_pow (n : ℤ) :
    ((2 : ℝ) ^ ((n : ℝ) / 24)) ^ (24 : ℕ) = (2 : ℝ) ^ n := by
  rw [← Real.rpow_natCast ((2 : ℝ) ^ ((n : ℝ) / 24)) 24,
    ← Real.rpow_mul (by norm_num : (0 : ℝ) ≤ 2),
    show ((n : ℝ) / 24 * ((24 : ℕ) : ℝ)) = (n : ℝ) by push_cast; ring]
  exact Real.rpow_intCast 2 n

theorem freq_pow24 (a : ℕ) (k : ℤ) :
    (((a : ℕ) : ℝ) * 2 ^ ((k : ℝ) / 24)) ^ (24 : ℕ) =
      ((a ^ 24 : ℕ) : ℝ) * (2 : ℝ) ^ k := by
  rw [mul_pow, rpow_div24_pow]
  push_cast
  ring

theorem zpow_cmp_lt (a b : ℕ) (k : ℤ) :
    (((a ^ 24 : ℕ) : ℝ) * (2 : ℝ) ^ k < ((b ^ 24 : ℕ) : ℝ)) ↔
      expLtB a k b = true := by
  unfold expLtB
  split
  · rename_i hk
    rw [show (2 : ℝ) ^ k = ((2 ^ k.toNat : ℕ) : ℝ) by
      push_cast
      rw [← zpow_natCast (2 : ℝ) k.toNat, Int.toNat_of_nonneg hk]]
    simp only [decide_eq_true_eq]
    exact_mod_cast Iff.rfl
  · rename_i hk
    rw [show (2 : ℝ) ^ k = (((2 ^ (-k).toNat : ℕ) : ℝ))⁻¹ by
      push_cast
      rw [← zpow_natCast (2 : ℝ) (-k).toNat,
        Int.toNat_of_nonneg (by omega : (0 : ℤ) ≤ -k), ← zpow_neg, neg_neg]]
    rw [← div_eq_mul_inv, div_lt_iff (by positivity)]
    simp only [decide_eq_true_eq]
    exact_mod_cast Iff.rfl

theorem zpow_cmp_gt (a b : ℕ) (k : ℤ) :
    (((b ^ 24 : ℕ) : ℝ) < ((a ^ 24 : ℕ) : ℝ) * (2 : ℝ) ^ k) ↔
      expGtB a k b = true := by
  unfold expGtB
  split
  · rename_i hk
    rw [show (2 : ℝ) ^ k = ((2 ^ k.toNat : ℕ) : ℝ) by
      push_cast
      rw [← zpow_natCast (2 : ℝ) k.toNat, Int.toNat_of_nonneg hk]]
    simp only [decide_eq_true_eq]
    exact_mod_cast Iff.rfl
  · rename_i hk
    rw [show (2 : ℝ) ^ k = (((2 ^ (-k).toNat : ℕ) : ℝ))⁻¹ by
      push_cast
      rw [← zpow_natCast (2 : ℝ) (-k).toNat,
        Int.toNat_of_nonneg (by omega : (0 : ℤ) ≤ -k), ← zpow_neg, neg_neg]]
    rw [← div_eq_mul_inv, lt_div_iff (by positivity)]
    simp only [decide_eq_true_eq]
    exact_mod_cast Iff.rfl

theorem expLtB_iff (a b : ℕ) (k : ℤ) :
    (((a : ℕ) : ℝ) * 2 ^ ((k : ℝ) / 24) < ((b : ℕ) : ℝ)) ↔
      expLtB a k b = true := by
  rw [← zpow_cmp_lt a b k,
    show ((a ^ 24 : ℕ) : ℝ) * (2 : ℝ) ^ k =
      (((a : ℕ) : ℝ) * 2 ^ ((k : ℝ) / 24)) ^ (24 : ℕ) from (freq_pow24 a k).symm,
    show ((b ^ 24 : ℕ) : ℝ) = (((b : ℕ) : ℝ)) ^ (24 : ℕ) by push_cast; ring]
  exact (pow_lt_pow_iff_left₀ (by positivity) (Nat.cast_nonneg b)
    (by norm_num)).symm

theorem expGtB_iff (a b : ℕ) (k : ℤ) :
    (((b : ℕ) : ℝ) < ((a : ℕ) : ℝ) * 2 ^ ((k : ℝ) / 24)) ↔
      expGtB a k b = true := by
  rw [← zpow_cmp_gt a b k,
    show ((a ^ 24 : ℕ) : ℝ) * (2 : ℝ) ^ k =
      (((a : ℕ) : ℝ) * 2 ^ ((k : ℝ) / 24)) ^ (24 : ℕ) from (freq_pow24 a k).symm,
    show ((b ^ 24 : ℕ) : ℝ) = (((b : ℕ) : ℝ)) ^ (24 : ℕ) by push_cast; ring]
  exact (pow_lt_pow_iff_left₀ (Nat.cast_nonneg b) (by positivity)
    (by norm_num)).symm

theorem melLeft_eq : melLeft = -93 := by
  unfold melLeft
  rw [Int.floor_eq_iff]
  constructor
  · rw [show (((-93 : ℤ)) : ℝ) = -93 by push_cast; ring,
      ← div_le_iff (by norm_num : (0 : ℝ) < 24),
      Real.le_logb_iff_rpow_le (by norm_num) (by norm_num : (0 : ℝ) < 30 / 440),
      show ((2 : ℝ) ^ ((-93 : ℝ) / 24)) = (2 : ℝ) ^ (((-93 : ℤ) : ℝ) / 24) by
        norm_num,
      ← pow_le_pow_iff_left₀ (by positivity) (by norm_num : (0 : ℝ) ≤ 30 / 440)
        (by norm_num : (24 : ℕ) ≠ 0),
      rpow_div24_pow]
    norm_num
  · rw [show (((-93 : ℤ)) : ℝ) + 1 = -92 by push_cast; ring,
      ← lt_div_iff (by norm_num : (0 : ℝ) < 24),
      Real.logb_lt_iff_lt_rpow (by norm_num) (by norm_num : (0 : ℝ) < 30 / 440),
      show ((2 : ℝ) ^ ((-92 : ℝ) / 24)) = (2 : ℝ) ^ (((-92 : ℤ) : ℝ) / 24) by
        norm_num,
      ← pow_lt_pow_iff_left₀ (by norm_num : (0 : ℝ) ≤ 30 / 440) (by positivity)
        (by norm_num : (24 : ℕ) ≠ 0),
      rpow_div24_pow]
    norm_num

theorem melRight_eq : melRight = 127 := by
  unfold melRight
  rw [Int.ceil_eq_iff]
  constructor
  · rw [show (((127 : ℤ)) : ℝ) - 1 = 126 by push_cast; ring,
      ← div_lt_iff (by norm_num : (0 : ℝ) < 24),
      Real.lt_logb_iff_rpow_lt (by norm_num)
        (by norm_num : (0 : ℝ) < 17000 / 440),
      show ((2 : ℝ) ^ ((126 : ℝ) / 24)) = (2 : ℝ) ^ (((126 : ℤ) : ℝ) / 24) by
        norm_num,
      ← pow_lt_pow_iff_left₀ (by positivity)
        (by norm_num : (0 : ℝ) ≤ 17000 / 440) (by norm_num : (24 : ℕ) ≠ 0),
      rpow_div24_pow]
    norm_num
  · rw [show (((127 : ℤ)) : ℝ) = 127 by push_cast; ring,
      ← le_div_iff (by norm_num : (0 : ℝ) < 24),
      Real.logb_le_iff_le_rpow (by norm_num)
        (by norm_num : (0 : ℝ) < 17000 / 440),
      show ((2 : ℝ) ^ ((127 : ℝ) / 24)) = (2 : ℝ) ^ (((127 : ℤ) : ℝ) / 24) by
        norm_num,
      ← pow_le_pow_iff_left₀ (by norm_num : (0 : ℝ) ≤ 17000 / 440)
        (by positivity) (by norm_num : (24 : ℕ) ≠ 0),
      rpow_div24_pow]
    norm_num



theorem melExpsAll_eq :
    melExpsAll = (List.range 220).map (fun j => -93 + (j : ℤ)) := by
  unfold melExpsAll
  simp only [melLeft_eq, melRight_eq]
  rw [show ((127 : ℤ) - -93).toNat = 220 from rfl]

set_option maxRecDepth 4000 in
theorem melExps_eq : melExps = melExpsC := by
  unfold melExps melExpsC
  rw [melExpsAll_eq]
  refine List.filter_congr ?_
  intro k _
  have h1 : ((30 : ℝ) ≤ freqOf k) ↔ expLtB 440 k 30 = false := by
    rw [← not_lt]
    unfold freqOf
    rw [show (440 : ℝ) = ((440 : ℕ) : ℝ) by norm_num,
      show (30 : ℝ) = ((30 : ℕ) : ℝ) by norm_num, expLtB_iff]
    simp
  have h2 : (freqOf k ≤ (17000 : ℝ)) ↔ expGtB 440 k 17000 = false := by
    rw [← not_lt]
    unfold freqOf
    rw [show (440 : ℝ) = ((440 : ℕ) : ℝ) by norm_num,
      show (17000 : ℝ) = ((17000 : ℕ) : ℝ) by norm_num, expGtB_iff]
    simp
  rw [Bool.eq_iff_iff]
  simp only [decide_eq_true_eq, Bool.and_eq_true, Bool.not_eq_true']
  rw [h1, h2]

theorem expGtB_mono (a : ℕ) (k : ℤ) (b b' : ℕ) (h : b' ≤ b)
    (hb : expGtB a k b = true) : expGtB a k b' = true := by
  unfold expGtB at hb ⊢
  by_cases hk : 0 ≤ k
  · rw [if_pos hk] at hb ⊢
    rw [decide_eq_true_eq] at hb ⊢
    exact lt_of_le_of_lt (Nat.pow_le_pow_left h 24) hb
  · rw [if_neg hk] at hb ⊢
    rw [decide_eq_true_eq] at hb ⊢
    exact lt_of_le_of_lt
      (Nat.mul_le_mul_right _ (Nat.pow_le_pow_left h 24)) hb

/-- Length of the filtered range when the predicate is a down-set:
all of `[0, r)` true, all of `[r, N)` false. -/
theorem filter_length_of_monotone (p : ℕ → Bool) (N r : ℕ) (hr : r ≤ N)
    (htrue : ∀ i, i < r → p i = true)
    (hfalse : ∀ i, r ≤ i → i < N → p i = false) :
    ((List.range N).filter p).length = r := by
  rw [show N = r + (N - r) by omega, List.range_add, List.filter_append]
  rw [List.filter_eq_self.mpr (by
    intro a ha
    rw [List.mem_range] at ha
    exact htrue a ha)]
  rw [List.filter_eq_nil_iff.mpr (by
    intro a ha
    rw [List.mem_map] at ha
    obtain ⟨j, hj, rfl⟩ := ha
    rw [List.mem_range] at hj
    simp [hfalse (r + j) (by omega) (by omega)])]
  simp

/-- `std::lower_bound` computes the partition point of a down-set
predicate: the number of indices on which it holds. -/
theorem lowerBoundGo_spec (p : ℕ → Bool) (N : ℕ)
    (hmono : ∀ i j, i ≤ j → p j = true → p i = true) :
    ∀ fuel first len, len < 2 ^ fuel → first + len ≤ N →
      (∀ i, i < first → p i = true) →
      (∀ i, first + len ≤ i → i < N → p i = false) →
      lowerBoundGo p fuel first len = ((List.range N).filter p).length := by
  intro fuel
  induction fuel with
  | zero =>
    intro first len hlen hN htrue hfalse
    have hlen0 : len = 0 := by omega
    subst hlen0
    unfold lowerBoundGo
    exact (filter_length_of_monotone p N first (by omega) htrue
      (by intro i h1 h2; exact hfalse i (by omega) h2)).symm
  | succ fuel ih =>
    intro first len hlen hN htrue hfalse
    unfold lowerBoundGo
    by_cases h0 : len = 0
    · rw [if_pos h0]
      subst h0
      exact (filter_length_of_monotone p N first (by omega) htrue
        (by intro i h1 h2; exact hfalse i (by omega) h2)).symm
    · rw [if_neg h0]
      simp only
      have hpow : 2 ^ (fuel + 1) = 2 * 2 ^ fuel := by ring
      by_cases hmid : p (first + len / 2) = true
      · rw [if_pos hmid]
        refine ih (first + len / 2 + 1) (len - len / 2 - 1) (by omega)
          (by omega) ?_ ?_
        · intro i hi
          by_cases hif : i < first
          · exact htrue i hif
          · exact hmono i (first + len / 2) (by omega) hmid
        · intro i h1 h2
          exact hfalse i (by omega) h2
      · rw [if_neg hmid]
        refine ih first (len / 2) (by omega) (by omega) htrue ?_
        intro i h1 h2
        by_cases hge : first + len ≤ i
        · exact hfalse i hge h2
        · by_cases hptrue : p i = true
          · exact absurd (hmono (first + len / 2) i (by omega) hptrue) hmid
          · exact Bool.eq_false_iff.mpr hptrue

theorem lbIdx_eq (k : ℤ) : lbIdx k = lbIdxC k := by
  unfold lbIdx lbIdxC
  have hpt : ∀ i ∈ List.range 705,
      (decide (fftFreq i < freqOf k)) = expGtB 20680 k (735 * i) := by
    intro i _
    rw [Bool.eq_iff_iff, decide_eq_true_eq]
    unfold fftFreq freqOf
    rw [div_lt_iff (by norm_num : (0 : ℝ) < 705 * 2)]
    rw [show (440 : ℝ) = ((440 : ℕ) : ℝ) by norm_num]
    have key : (((735 * i : ℕ) : ℝ) <
        ((20680 : ℕ) : ℝ) * 2 ^ ((k : ℝ) / 24)) ↔
        ((i : ℝ) * 22050 <
          ((440 : ℕ) : ℝ) * 2 ^ ((k : ℝ) / 24) * (705 * 2)) := by
      rw [← mul_lt_mul_right (by norm_num : (0 : ℝ) < 30)]
      push_cast
      constructor <;> intro h <;> nlinarith [h]
    rw [← key, expGtB_iff]
  rw [List.filter_congr hpt]
  exact (lowerBoundGo_spec (fun i => expGtB 20680 k (735 * i)) 705
    (fun i j hij hj => expGtB_mono 20680 k (735 * j) (735 * i)
      (by omega) hj)
    16 0 705 (by norm_num) (by norm_num)
    (by intro i hi; exact absurd hi (Nat.not_lt_zero i))
    (by intro i h1 h2; exact absurd h2 (by omega))).symm

set_option maxRecDepth 4000 in
theorem binFor_eq (k : ℤ) : binFor k = binForC k := by
  unfold binFor binForC
  rw [lbIdx_eq]
  set n := max 1 (min (lbIdxC k) 704) with hn
  have hn1 : 1 ≤ n := le_max_left _ _
  refine if_congr ?_ rfl rfl
  rw [sub_lt_sub_iff]
  unfold fftFreq freqOf
  rw [show (440 : ℝ) = ((440 : ℕ) : ℝ) by norm_num]
  have key : (((41360 : ℕ) : ℝ) * 2 ^ ((k : ℝ) / 24) <
      ((735 * (2 * n - 1) : ℕ) : ℝ)) ↔
      (((440 : ℕ) : ℝ) * 2 ^ ((k : ℝ) / 24) +
          ((440 : ℕ) : ℝ) * 2 ^ ((k : ℝ) / 24) <
        (n : ℝ) * 22050 / (705 * 2) +
          (((n - 1 : ℕ) : ℕ) : ℝ) * 22050 / (705 * 2)) := by
    rw [Nat.cast_sub hn1]
    push_cast [Nat.cast_sub (by omega : 1 ≤ 2 * n)]
    rw [← mul_lt_mul_right (by norm_num : (0 : ℝ) < 1410)]
    constructor <;> intro h <;> nlinarith [h]
  rw [← key, expLtB_iff]

theorem melBins_eq_uniq : melBins = melBinsUniq := by
  unfold melBins
  rw [melExps_eq,
    show melExpsC.map binFor = melExpsC.map binForC from
      List.map_congr_left (fun k _ => binFor_eq k)]
  exact melBinsC_eq

/-- The deduplicated bin list has 138 entries. -/
theorem melBins_length : melBins.length = 138 := by
  rw [melBins_eq_uniq]
  exact melBinsUniq_facts.1

/-- Consecutive deduplicated bins are strictly increasing. -/
theorem melBins_lt (i : ℕ) (h : i < 137) :
    melBins.getD i 0 < melBins.getD (i + 1) 0 := by
  rw [melBins_eq_uniq]
  exact melBinsUniq_facts.2.1 i h

/-- Every deduplicated bin lies in `[1, 704]`. -/
theorem melBins_bounds (i : ℕ) (h : i < 138) :
    1 ≤ melBins.getD i 0 ∧ melBins.getD i 0 ≤ 704 := by
  rw [melBins_eq_uniq]
  exact melBinsUniq_facts.2.2 i h

end MelBridge

section FilterDefs

/-- One triangular filter over the 705 magnitude bins: the rising-edge
loop writes `k / relCenter` at `start + k` for `k < center - start`, the
falling-edge loop writes `1 - k / (relStop - relCenter)` at `center + k`
for `k < stop - center`; all other bins stay zero.  (The source's
`start + k < numBins_` guards never exclude a write since the map is
restricted to `j < 705`.) -/
noncomputable def triFilter (start center stop : ℕ) : List ℝ :=
  (List.range 705).map (fun j =>
    if start ≤ j ∧ j < center then
      ((j - start : ℕ) : ℝ) / ((center - start : ℕ) : ℝ)
    else if center ≤ j ∧ j < stop then
      1 - ((j - center : ℕ) : ℝ) / ((stop - center : ℕ) : ℝ)
    else 0)

open Classical in
/-- The `normalize` branch of the filter constructor: divide by the sum
when it is positive. -/
noncomputable def normalizeFilter (f : List ℝ) : List ℝ :=
  if 0 < f.sum then f.map (fun x => x / f.sum) else f

/-- One band of `LogFilterbank`: collapse to a one-bin filter when
`stop - start < 2`, then normalise. -/
noncomputable def mkBandFilter (start center stop : ℕ) : List ℝ :=
  if stop - start < 2 then normalizeFilter (triFilter start start (start + 1))
  else normalizeFilter (triFilter start center stop)

/-- The whole filterbank: one filter per consecutive bin triple
(`for i; i + 2 < bins.size(); i++`). -/
noncomputable def logFilterbank : List (List ℝ) :=
  (List.range (melBins.length - 2)).map (fun i =>
    mkBandFilter (melBins.getD i 0) (melBins.getD (i + 1) 0)
      (melBins.getD (i + 2) 0))

end FilterDefs

section FilterLemmas

theorem getD_mem_of_lt {α : Type} (l : List α) (d : α) (n : ℕ)
    (h : n < l.length) : l.getD n d ∈ l := by
  rw [List.getD_eq_getElem l d h]
  exact List.getElem_mem h

theorem sum_map_div (l : List ℝ) (s : ℝ) :
    (l.map (fun x => x / s)).sum = l.sum / s := by
  induction l with
  | nil => simp
  | cons a t ih => simp [ih, add_div]

theorem triFilter_length (a c s : ℕ) : (triFilter a c s).length = 705 := by
  simp [triFilter]

theorem triFilter_nonneg (a c s : ℕ) (h2 : c < s) :
    ∀ x ∈ triFilter a c s, 0 ≤ x := by
  intro x hx
  rw [triFilter, List.mem_map] at hx
  obtain ⟨j, hj, rfl⟩ := hx
  split
  · positivity
  · split
    · rename_i hcond
      have hden : (0 : ℝ) < ((s - c : ℕ) : ℝ) := by
        exact_mod_cast (by omega : 0 < s - c)
      have hle : ((j - c : ℕ) : ℝ) / ((s - c : ℕ) : ℝ) ≤ 1 := by
        rw [div_le_one hden]
        exact_mod_cast (by omega : j - c ≤ s - c)
      linarith
    · exact le_refl 0

theorem triFilter_getD_center (a c s : ℕ) (hc : c < 705) (h2 : c < s) :
    (triFilter a c s).getD c 0 = 1 := by
  rw [triFilter, getD_range_map _ 705 c hc]
  rw [if_neg (by omega : ¬ (a ≤ c ∧ c < c)), if_pos ⟨le_refl c, h2⟩]
  simp

theorem triFilter_sum_pos (a c s : ℕ) (hc : c < 705) (h2 : c < s) :
    0 < (triFilter a c s).sum := by
  have hmem : (triFilter a c s).getD c 0 ∈ triFilter a c s :=
    getD_mem_of_lt _ _ _ (by rw [triFilter_length]; exact hc)
  rw [triFilter_getD_center a c s hc h2] at hmem
  have h1 : (1 : ℝ) ≤ (triFilter a c s).sum :=
    List.single_le_sum (triFilter_nonneg a c s h2) 1 hmem
  linarith

theorem normalizeFilter_nonneg (f : List ℝ) (h : ∀ x ∈ f, 0 ≤ x) :
    ∀ x ∈ normalizeFilter f, 0 ≤ x := by
  unfold normalizeFilter
  split
  · rename_i hs
    intro x hx
    rw [List.mem_map] at hx
    obtain ⟨y, hy, rfl⟩ := hx
    exact div_nonneg (h y hy) (le_of_lt hs)
  · exact h

theorem normalizeFilter_sum (f : List ℝ) (h : 0 < f.sum) :
    (normalizeFilter f).sum = 1 := by
  unfold normalizeFilter
  rw [if_pos h, sum_map_div]
  exact div_self (ne_of_gt h)

theorem normalizeFilter_length (f : List ℝ) :
    (normalizeFilter f).length = f.length := by
  unfold normalizeFilter
  split <;> simp

theorem mkBandFilter_sum (a c s : ℕ) (h1 : a < c) (h2 : c < s)
    (h3 : s ≤ 704) : (mkBandFilter a c s).sum = 1 := by
  unfold mkBandFilter
  rw [if_neg (by omega : ¬ s - a < 2)]
  exact normalizeFilter_sum _ (triFilter_sum_pos a c s (by omega) h2)

theorem mkBandFilter_nonneg (a c s : ℕ) (h1 : a < c) (h2 : c < s) :
    ∀ x ∈ mkBandFilter a c s, 0 ≤ x := by
  unfold mkBandFilter
  rw [if_neg (by omega : ¬ s - a < 2)]
  exact normalizeFilter_nonneg _ (triFilter_nonneg a c s h2)

theorem mkBandFilter_length (a c s : ℕ) :
    (mkBandFilter a c s).length = 705 := by
  unfold mkBandFilter
  split <;> rw [normalizeFilter_length, triFilter_length]

theorem logFilterbank_length : logFilterbank.length = 136 := by
  rw [logFilterbank, List.length_map, List.length_range, melBins_length]

theorem logFilterbank_mem_shape (f : List ℝ) (hf : f ∈ logFilterbank) :
    ∃ i, i < 136 ∧
      f = mkBandFilter (melBins.getD i 0) (melBins.getD (i + 1) 0)
        (melBins.getD (i + 2) 0) := by
  rw [logFilterbank, List.mem_map] at hf
  obtain ⟨i, hi, rfl⟩ := hf
  rw [List.mem_range, melBins_length] at hi
  exact ⟨i, by omega, rfl⟩

theorem logFilterbank_nonneg (f : List ℝ) (hf : f ∈ logFilterbank) :
    ∀ x ∈ f, 0 ≤ x := by
  obtain ⟨i, hi, rfl⟩ := logFilterbank_mem_shape f hf
  exact mkBandFilter_nonneg _ _ _ (melBins_lt i (by omega))
    (melBins_lt (i + 1) (by omega))

theorem logFilterbank_sum (f : List ℝ) (hf : f ∈ logFilterbank) :
    f.sum = 1 := by
  obtain ⟨i, hi, rfl⟩ := logFilterbank_mem_shape f hf
  exact mkBandFilter_sum _ _ _ (melBins_lt i (by omega))
    (melBins_lt (i + 1) (by omega)) ((melBins_bounds (i + 2) (by omega)).2)

theorem logFilterbank_mem_length (f : List ℝ) (hf : f ∈ logFilterbank) :
    f.length = 705 := by
  obtain ⟨i, hi, rfl⟩ := logFilterbank_mem_shape f hf
  exact mkBandFilter_length _ _ _

end FilterLemmas

/-- C7.  The log-filterbank built from the fixed parameters (FFT length
1411, sample rate 22050, 24 bands per octave, 30 Hz – 17 kHz, reference
440 Hz, normalised) has exactly 136 bands, every coefficient is
non-negative, and every filter sums to 1. -/
theorem C7_filterbank :
    logFilterbank.length = 136 ∧
    (∀ f ∈ logFilterbank, ∀ x ∈ f, 0 ≤ x) ∧
    (∀ f ∈ logFilterbank, f.sum = 1) :=
  ⟨logFilterbank_length, fun f hf => logFilterbank_nonneg f hf,
   fun f hf => logFilterbank_sum f hf⟩

/-- C7 (witness): the first filter of the bank, a concrete member, sums
to 1. -/
theorem C7_filterbank_witness :
    logFilterbank.getD 0 [] ∈ logFilterbank ∧
      (logFilterbank.getD 0 []).sum = 1 := by
  have hmem : logFilterbank.getD 0 [] ∈ logFilterbank :=
    getD_mem_of_lt _ _ _ (by rw [logFilterbank_length]; norm_num)
  exact ⟨hmem, C7_filterbank.2.2 _ hmem⟩


section MelFrameDefs

/-- Streaming state of `MelExtractor`'s per-frame pipeline: the previously
emitted log-mel vector and the `hasPreviousFrame` flag. -/
structure MelState where
  hasPreviousFrame : Bool
  previousLogMel : List ℝ

/-- State after construction (`MelExtractor::Impl::Impl`). -/
noncomputable def MelState.init : MelState :=
  ⟨false, List.replicate logFilterbank.length 0⟩

/-- `MelExtractor::reset`. -/
noncomputable def MelState.reset (s : MelState) : MelState :=
  ⟨false, List.replicate s.previousLogMel.length 0⟩

/-- Symmetric Hann window tap (`createHannWindow` with length 1411). -/
noncomputable def hannWindow (i : ℕ) : ℝ :=
  1 / 2 * (1 - Real.cos (2 * Real.pi * i / (1411 - 1)))

/-- The windowed, zero-padded FFT input of `processFrame`. -/
noncomputable def windowedFrame (frame : List ℝ) (i : ℕ) : ℝ :=
  if i < min frame.length 1411 then frame.getD i 0 * hannWindow i else 0

/-- Magnitude of FFT bin `k`, with the DFT as the exact semantics of the
forward real FFT. -/
noncomputable def dftMag (frame : List ℝ) (k : ℕ) : ℝ :=
  Complex.abs (∑ j ∈ Finset.range 1411,
    (windowedFrame frame j : ℂ) *
      Complex.exp (-2 * Real.pi * Complex.I * j * k / 1411))

/-- `LogFilterbank::apply` at band `m`. -/
noncomputable def melFiltered (frame : List ℝ) (m : ℕ) : ℝ :=
  ∑ k ∈ Finset.range 705,
    dftMag frame k * (logFilterbank.getD m []).getD k 0

/-- The log-scaled filterbank outputs (`log10(1 + S)`). -/
noncomputable def logMel (frame : List ℝ) : List ℝ :=
  (List.range logFilterbank.length).map
    (fun m => Real.logb 10 (1 + melFiltered frame m))

/-- `MelExtractor::processFrame`: updated state and the 272-dimensional
feature vector `[log-mel, diff]` with half-wave-rectified differences
(all-zero diff for the first frame of a stream). -/
noncomputable def MelExtractor.processFrame (st : MelState)
    (frame : List ℝ) : MelState × List ℝ :=
  let cur := logMel frame
  let diff :=
    if st.hasPreviousFrame = false then
      List.replicate logFilterbank.length (0 : ℝ)
    else
      (List.range logFilterbank.length).map (fun i =>
        if 0 < cur.getD i 0 - st.previousLogMel.getD i 0 then
          cur.getD i 0 - st.previousLogMel.getD i 0
        else 0)
  (⟨true, cur⟩, cur ++ diff)

end MelFrameDefs

section MelFrameLemmas

theorem filterCoeff_nonneg (m k : ℕ) :
    0 ≤ (logFilterbank.getD m []).getD k 0 := by
  by_cases hm : m < logFilterbank.length
  · by_cases hk : k < (logFilterbank.getD m []).length
    · exact logFilterbank_nonneg _ (getD_mem_of_lt _ _ _ hm) _
        (getD_mem_of_lt _ _ _ hk)
    · rw [List.getD_eq_default _ _ (le_of_not_lt hk)]
  · rw [List.getD_eq_default _ _ (le_of_not_lt hm)]
    simp

theorem melFiltered_nonneg (frame : List ℝ) (m : ℕ) :
    0 ≤ melFiltered frame m := by
  refine Finset.sum_nonneg fun k _ => ?_
  exact mul_nonneg (AbsoluteValue.nonneg _ _) (filterCoeff_nonneg m k)

theorem logMel_length (frame : List ℝ) :
    (logMel frame).length = logFilterbank.length := by
  rw [logMel, List.length_map, List.length_range]

theorem logMel_nonneg (frame : List ℝ) : ∀ x ∈ logMel frame, 0 ≤ x := by
  intro x hx
  rw [logMel, List.mem_map] at hx
  obtain ⟨m, _, rfl⟩ := hx
  exact Real.logb_nonneg (by norm_num)
    (by linarith [melFiltered_nonneg frame m])

end MelFrameLemmas

/-- C8.  Every feature frame produced by `MelExtractor::processFrame` has
272 dimensions; its first 136 (log-mel) entries and its last 136 (diff)
entries are all non-negative; and for the first frame after construction
or reset (`hasPreviousFrame = false`) the diff half is identically
zero. -/
theorem C8_mel_features (st : MelState) (frame : List ℝ) :
    (MelExtractor.processFrame st frame).2.length = 272 ∧
    (∀ x ∈ (MelExtractor.processFrame st frame).2.take 136, 0 ≤ x) ∧
    (∀ x ∈ (MelExtractor.processFrame st frame).2.drop 136, 0 ≤ x) ∧
    (st.hasPreviousFrame = false →
      (MelExtractor.processFrame st frame).2.drop 136 =
        List.replicate 136 0) := by
  have hfb : logFilterbank.length = 136 := logFilterbank_length
  have hcur : (logMel frame).length = 136 := by rw [logMel_length, hfb]
  simp only [MelExtractor.processFrame]
  refine ⟨?_, ?_, ?_, ?_⟩
  · rw [List.length_append, hcur]
    split
    · rw [List.length_replicate, hfb]
    · rw [List.length_map, List.length_range, hfb]
  · intro x hx
    rw [List.take_left' hcur] at hx
    exact logMel_nonneg frame x hx
  · intro x hx
    rw [List.drop_left' hcur] at hx
    split at hx
    · rw [List.mem_replicate] at hx
      rw [hx.2]
    · rw [List.mem_map] at hx
      obtain ⟨i, _, rfl⟩ := hx
      split
      · rename_i hd
        linarith
      · exact le_refl 0
  · intro hprev
    rw [List.drop_left' hcur, if_pos hprev, hfb]

/-- C8 (witness): the first frame after construction, at the empty input
frame. -/
theorem C8_mel_features_witness :
    (MelExtractor.processFrame MelState.init []).2.drop 136 =
      List.replicate 136 0 ∧
    (MelExtractor.processFrame MelState.init []).2.length = 272 :=
  ⟨(C8_mel_features MelState.init []).2.2.2 rfl,
   (C8_mel_features MelState.init []).1⟩


/-! ### Concrete environments and states for the engine claims -/

/-- Trivial oracle environment over `ℚ`: no frames, no successful
inferences, zero coefficients. -/
def envUnit : EngineEnv ℚ Unit Unit Unit :=
  { coeffs := fun _ => 0
    melInit := ()
    beatInit := ()
    cqtInit := ()
    melPush := fun m _ _ => (m, [])
    beatInfer := fun b _ => (b, none)
    cqtPush := fun c _ _ => (c, [])
    keyInfer := fun _ => none }

/-- Environment whose mel extractor yields two frames per call and whose
beat model always succeeds: one call produces exactly two BPM frames. -/
def envTwoFrames : EngineEnv ℚ Unit Unit Unit :=
  { envUnit with
    melPush := fun m _ _ => (m, [[], []])
    beatInfer := fun b _ => (b, some (0, 0)) }

/-- Freshly constructed engine state with no model loaded. -/
def sOff : EngineState ℚ Unit Unit Unit :=
  { beatReady := false
    keyReady := false
    melState := ()
    beatState := ()
    cqtState := ()
    resampler := ResamplerState.init
    ring := ActivationBuffer.init DEFAULT_MAX_FRAMES
    cqtBuffer := []
    cqtFrameCount := 0
    cqtFramesSinceInference := 0
    keyInferenceCount := 0
    currentKey := ⟨"", "", 0, false⟩ }

/-- Fresh state with (only) the BeatNet model loaded. -/
def sBpmOn : EngineState ℚ Unit Unit Unit := { sOff with beatReady := true }

/-- C3 (counterexample).  With a mel oracle producing two frames and an
always-succeeding beat model, one `processAudio` call with an output
buffer of capacity `maxResults = 1` pushes two activation pairs into the
ring (two BPM frames produced) but returns `resultsProduced = 1`: the
return value is the copied count, not the produced count. -/
theorem C3_counterexample :
    (Engine.processAudio envTwoFrames sBpmOn [0] true 1).1 = 1 ∧
    (Engine.processAudio envTwoFrames sBpmOn [0] true 1).2.ring.count
      = 2 := ⟨rfl, rfl⟩

/-- C3 (amended).  When neither model is loaded, `processAudio` returns 0
and leaves the engine state unchanged.  In general the call pushes some
list of activation pairs into the ring (the BPM frames produced this
call), and the return value is the number of those pairs when no output
buffer is passed, but `min(produced, maxResults)` — the number copied —
when one is passed. -/
theorem C3_processAudio {α : Type} [LinearOrderedField α] [FloorRing α]
    {μ ν κ : Type} (env : EngineEnv α μ ν κ) (s : EngineState α μ ν κ)
    (samples : List α) (hasOut : Bool) (maxResults : ℕ) :
    (s.beatReady = false ∧ s.keyReady = false →
      Engine.processAudio env s samples hasOut maxResults = (0, s)) ∧
    ∃ pairs : List (α × α),
      (Engine.processAudio env s samples hasOut maxResults).2.ring =
        s.ring.pushAll pairs ∧
      (Engine.processAudio env s samples hasOut maxResults).1 =
        (if hasOut = true then min pairs.length maxResults
          else pairs.length) := by
  constructor
  · rintro ⟨hb, hk⟩
    unfold Engine.processAudio
    rw [keySide_not_ready env s samples hk]
    simp only
    rw [if_pos hb]
  · exact processAudio_ring_return env s samples hasOut maxResults

/-- C3 (witness): the no-op half of the amended theorem at a concrete
unloaded engine. -/
theorem C3_processAudio_witness :
    Engine.processAudio envUnit sOff [0] false 3 = (0, sOff) :=
  (C3_processAudio envUnit sOff [0] false 3).1 ⟨rfl, rfl⟩

/-- C4 (claim).  Per `processAudio` call: with the key model absent the
key observables are untouched; with it present, the frame count grows by
the number of CQT frames produced, and key inference runs exactly when
the accumulated count has reached `KEY_MIN_FRAMES` and either no inference
has succeeded yet or `KEY_INFERENCE_INTERVAL` frames have accumulated
since the last success.  When it runs, a successful adapter call replaces
the stored key and zeroes the per-interval counter; a failed one leaves
the stored key, the inference count and the counter's accumulation
untouched.  Outside the schedule nothing key-related changes. -/
theorem C4_key_inference_schedule {α : Type} [LinearOrderedField α]
    [FloorRing α] {μ ν κ : Type} (env : EngineEnv α μ ν κ)
    (s : EngineState α μ ν κ) (samples : List α) (hasOut : Bool)
    (maxResults : ℕ) (cs : κ) (new : List (List α))
    (hcqt : env.cqtPush s.cqtState samples 20 = (cs, new)) :
    (s.keyReady = false →
      (Engine.processAudio env s samples hasOut maxResults).2.currentKey
          = s.currentKey ∧
      (Engine.processAudio env s samples hasOut
          maxResults).2.keyInferenceCount = s.keyInferenceCount ∧
      (Engine.processAudio env s samples hasOut
          maxResults).2.cqtFramesSinceInference
          = s.cqtFramesSinceInference ∧
      (Engine.processAudio env s samples hasOut
          maxResults).2.cqtFrameCount = s.cqtFrameCount) ∧
    (s.keyReady = true →
      (Engine.processAudio env s samples hasOut
          maxResults).2.cqtFrameCount
          = s.cqtFrameCount + new.length ∧
      (¬ (KEY_MIN_FRAMES ≤ s.cqtFrameCount + new.length ∧
            (s.keyInferenceCount = 0 ∨ KEY_INFERENCE_INTERVAL ≤
              s.cqtFramesSinceInference + new.length)) →
        (Engine.processAudio env s samples hasOut
            maxResults).2.currentKey = s.currentKey ∧
        (Engine.processAudio env s samples hasOut
            maxResults).2.keyInferenceCount = s.keyInferenceCount ∧
        (Engine.processAudio env s samples hasOut
            maxResults).2.cqtFramesSinceInference
            = s.cqtFramesSinceInference + new.length) ∧
      (KEY_MIN_FRAMES ≤ s.cqtFrameCount + new.length ∧
          (s.keyInferenceCount = 0 ∨ KEY_INFERENCE_INTERVAL ≤
            s.cqtFramesSinceInference + new.length) →
        (env.keyInfer (s.cqtBuffer ++ new) = none →
          (Engine.processAudio env s samples hasOut
              maxResults).2.currentKey = s.currentKey ∧
          (Engine.processAudio env s samples hasOut
              maxResults).2.keyInferenceCount = s.keyInferenceCount ∧
          (Engine.processAudio env s samples hasOut
              maxResults).2.cqtFramesSinceInference
              = s.cqtFramesSinceInference + new.length) ∧
        ∀ o : KeyOutput α, env.keyInfer (s.cqtBuffer ++ new) = some o →
          (Engine.processAudio env s samples hasOut
              maxResults).2.currentKey
              = ⟨o.camelot, o.notationLabel, o.confidence, true⟩ ∧
          (Engine.processAudio env s samples hasOut
              maxResults).2.keyInferenceCount = s.keyInferenceCount + 1 ∧
          (Engine.processAudio env s samples hasOut
              maxResults).2.cqtFramesSinceInference = 0)) := by
  obtain ⟨hck, hcc, hcs, hcf⟩ :=
    processAudio_key_fields env s samples hasOut maxResults
  rw [hck, hcc, hcs, hcf]
  have hacc : Engine.keyAccum env s samples =
      { s with
        cqtState := cs
        cqtBuffer := s.cqtBuffer ++ new
        cqtFrameCount := s.cqtFrameCount + new.length
        cqtFramesSinceInference :=
          s.cqtFramesSinceInference + new.length } := by
    unfold Engine.keyAccum
    rw [hcqt]
  constructor
  · intro hk
    rw [keySide_not_ready env s samples hk]
    exact ⟨rfl, rfl, rfl, rfl⟩
  · intro hk
    unfold Engine.keySide
    rw [if_pos hk, hacc]
    by_cases htr : Engine.keyTrigger
        ({ s with
          cqtState := cs
          cqtBuffer := s.cqtBuffer ++ new
          cqtFrameCount := s.cqtFrameCount + new.length
          cqtFramesSinceInference :=
            s.cqtFramesSinceInference + new.length } :
          EngineState α μ ν κ)
    · rw [if_pos htr]
      obtain ⟨htr1, htr2⟩ := htr
      unfold Engine.runKeyInference
      rw [if_neg (by
        simp only [hk]
        push_neg
        refine ⟨by simp, ?_⟩
        exact htr1)]
      refine ⟨?_, ?_, ?_⟩
      · cases hki : env.keyInfer (s.cqtBuffer ++ new) with
        | none => rfl
        | some o => rfl
      · intro hcon
        exact absurd ⟨htr1, htr2⟩ hcon
      · intro _
        constructor
        · intro hki
          rw [hki]
          exact ⟨rfl, rfl, rfl⟩
        · intro o hki
          rw [hki]
          exact ⟨rfl, rfl, rfl⟩
    · rw [if_neg htr]
      refine ⟨rfl, fun _ => ⟨rfl, rfl, rfl⟩, fun hcon => absurd hcon htr⟩

/-- Environment whose CQT extractor yields 100 frames per call and whose
key CNN always reports A minor with confidence 1. -/
def envKey : EngineEnv ℚ Unit Unit Unit :=
  { envUnit with
    cqtPush := fun c _ _ => (c, List.replicate 100 [])
    keyInfer := fun _ => some ⟨"8A", "Am", 1⟩ }

/-- Fresh state with (only) the key model loaded. -/
def sKeyOn : EngineState ℚ Unit Unit Unit := { sOff with keyReady := true }

/-- C4 (witness): at a concrete environment producing 100 CQT frames in
one call, the schedule fires on the first call and the successful
inference is stored. -/
theorem C4_key_inference_schedule_witness :
    (Engine.processAudio envKey sKeyOn [] false 0).2.currentKey
        = ⟨"8A", "Am", 1, true⟩ ∧
    (Engine.processAudio envKey sKeyOn [] false 0).2.keyInferenceCount
        = 1 ∧
    (Engine.processAudio envKey sKeyOn [] false
        0).2.cqtFramesSinceInference = 0 := by
  have h := (C4_key_inference_schedule envKey sKeyOn [] false 0 ()
    (List.replicate 100 []) rfl).2 rfl
  have h2 := (h.2.2 (by
    constructor
    · show KEY_MIN_FRAMES ≤ 0 + (List.replicate 100 ([] : List ℚ)).length
      simp [KEY_MIN_FRAMES]
    · exact Or.inl rfl)).2 ⟨"8A", "Am", 1⟩ rfl
  exact h2

/-- C10 (claim).  Over every sequence of `processAudio` calls from a
cleared ring of capacity `DEFAULT_MAX_FRAMES = 512`, the engine's
reported BPM frame count equals `min(total activation pairs pushed, 512)`
— it saturates at the ring capacity instead of counting all frames ever
processed. -/
theorem C10_frame_count {α : Type} [LinearOrderedField α] [FloorRing α]
    {μ ν κ : Type} (env : EngineEnv α μ ν κ) (s0 : EngineState α μ ν κ)
    (calls : List (List α × Bool × ℕ))
    (hM : s0.ring.maxFrames = DEFAULT_MAX_FRAMES)
    (hh : s0.ring.head = 0) (hc : s0.ring.count = 0)
    (hbl : s0.ring.beatActivations.length = DEFAULT_MAX_FRAMES)
    (hdl : s0.ring.downbeatActivations.length = DEFAULT_MAX_FRAMES) :
    ∃ pairs : List (α × α),
      (Engine.runCalls env s0 calls).ring = s0.ring.pushAll pairs ∧
      Engine.getFrameCount (Engine.runCalls env s0 calls) =
        min pairs.length DEFAULT_MAX_FRAMES := by
  obtain ⟨pairs, hp⟩ := runCalls_ring env calls s0
  refine ⟨pairs, hp, ?_⟩
  have hinv := ringInv_pushAll (C := DEFAULT_MAX_FRAMES) (by decide)
    s0.ring hM hh hc hbl hdl pairs
  show (Engine.runCalls env s0 calls).ring.count = _
  rw [hp]
  exact hinv.2.2.1

/-- C10 (witness): the saturation formula at a concrete engine and a
two-call sequence. -/
theorem C10_frame_count_witness :
    ∃ pairs : List (ℚ × ℚ),
      (Engine.runCalls envTwoFrames sBpmOn
          [([0], true, 1), ([0], false, 0)]).ring =
        sBpmOn.ring.pushAll pairs ∧
      Engine.getFrameCount (Engine.runCalls envTwoFrames sBpmOn
          [([0], true, 1), ([0], false, 0)]) =
        min pairs.length DEFAULT_MAX_FRAMES :=
  C10_frame_count envTwoFrames sBpmOn [([0], true, 1), ([0], false, 0)]
    rfl rfl rfl (by simp [sBpmOn, sOff, ActivationBuffer.init])
    (by simp [sBpmOn, sOff, ActivationBuffer.init])

end Keyed
